import Mathlib

/-!
Verification of the name-normalization core of `mod1`
(`mod1/mod1_modules/pokemon.py`).

Strings are modelled as lists of Unicode code points (`List Nat`).
`str.lower()` / `str.upper()` are modelled on the ASCII range (non-ASCII
letters are left unchanged), and the regex character class `\w` is modelled
as ASCII word characters; all concrete inputs appearing in the claims are
ASCII, where this model agrees with Python exactly.
-/

namespace Mod1

/-- Strings as lists of Unicode code points. -/
abbrev Str := List Nat

/-- Code-point list of a Lean string literal. -/
def S (s : String) : Str := s.toList.map Char.toNat

/-- Python `\s` (ASCII whitespace: space, tab, LF, VT, FF, CR). -/
def isWSb (n : Nat) : Bool :=
  n == 32 || n == 9 || n == 10 || n == 11 || n == 12 || n == 13

/-- Python `\w` on the ASCII range: letters, digits, underscore. -/
def isWordB (n : Nat) : Bool :=
  (97 ≤ n && n ≤ 122) || (65 ≤ n && n ≤ 90) || (48 ≤ n && n ≤ 57) || n == 95

/-- The character class `[\w\-\.\' %]` shared by the three regexes
(word characters, hyphen, dot, apostrophe, space, percent). -/
def isAb (n : Nat) : Bool :=
  isWordB n || n == 45 || n == 46 || n == 39 || n == 32 || n == 37

/-- The separator class `[\s\-\_:,]` of `RE_SUFFIX`. -/
def isSepB (n : Nat) : Bool :=
  isWSb n || n == 45 || n == 95 || n == 58 || n == 44

/-- `str.lower()` on the ASCII range. -/
def pyLower (n : Nat) : Nat := if 65 ≤ n ∧ n ≤ 90 then n + 32 else n

/-- `str.upper()` on the ASCII range. -/
def pyUpper (n : Nat) : Nat := if 97 ≤ n ∧ n ≤ 122 then n - 32 else n

def lowerStr (l : Str) : Str := l.map pyLower

def upperStr (l : Str) : Str := l.map pyUpper

/-- `str.strip()`: drop leading whitespace. -/
def stripL (l : Str) : Str := l.dropWhile isWSb

/-- `str.strip()`: drop trailing whitespace. -/
def stripR (l : Str) : Str := (l.reverse.dropWhile isWSb).reverse

/-- `str.strip()`. -/
def strip (l : Str) : Str := stripR (stripL l)

/-- `_clean_token`'s quote unification: `’` (U+2019) and a backtick become `'`. -/
def repQuote (n : Nat) : Nat := if n = 8217 ∨ n = 96 then 39 else n

/-- `normalize_name`'s punctuation unification: `’` (U+2019) and `‘` (U+2018)
become `'`, `–` (U+2013) becomes `-`. -/
def replaceUni (n : Nat) : Nat :=
  if n = 8217 ∨ n = 8216 then 39 else if n = 8211 then 45 else n

def repQuoteStr (l : Str) : Str := l.map repQuote

def replaceUniStr (l : Str) : Str := l.map replaceUni

/-- Raw whitespace split: every whitespace character opens a (possibly
empty) new piece. -/
def splitRaw (l : Str) : List Str :=
  l.foldr (fun c acc =>
    if isWSb c then [] :: acc
    else match acc with
      | [] => [[c]]
      | t :: rest => (c :: t) :: rest) []

/-- `str.split()`: split on whitespace runs, discarding empty pieces. -/
def splitWs (l : Str) : List Str :=
  (splitRaw l).filter (fun t => !t.isEmpty)

/-- `" ".join(...)`. -/
def joinSpace (ls : List Str) : Str := List.intercalate [32] ls

/-- `_clean_token`: strip, unify quotes, collapse whitespace, lowercase. -/
def clean (t : Str) : Str := lowerStr (joinSpace (splitWs (repQuoteStr (strip t))))

/-- `_VARIANT_MAP`, in the source's literal order. -/
def variantPairs : List (Str × Str) :=
  [(S "alolan", S "alolan"), (S "alola", S "alolan"),
   (S "galarian", S "galarian"), (S "galar", S "galarian"),
   (S "hisuian", S "hisuian"), (S "hisuia", S "hisuian"),
   (S "paldean", S "paldean"), (S "paldea", S "paldean"),
   (S "mega", S "mega"),
   (S "gigantamax", S "gigantamax"), (S "gmax", S "gigantamax")]

/-- `_VARIANT_MAP[t]` as an optional lookup (`t in _VARIANT_MAP` is
`(lookupVariant t).isSome`). -/
def lookupVariant (t : Str) : Option Str :=
  (variantPairs.find? (fun p => p.1 == t)).map (·.2)

/-- `[n, n-1, ..., 1]` — the order of `range(n, 0, -1)` and of regex
backtracking from a greedy match. -/
def descRange (n : Nat) : List Nat := (List.range n).reverse.map (· + 1)

/-- `RE_PAREN.match(s)`: `^(?P<base>[\w\-\.\' %]+)\s*\(\s*(?P<form>[^)]+)\s*\)\s*$`.
Returns `(base, form)` groups. The greedy `base` is the maximal run of
class-`A` characters; after optional whitespace a literal `(` must follow;
`form` is everything from the first non-whitespace character after `(` up to
the first `)` (or the last whitespace character if the parenthesis content is
all whitespace); after the `)` only whitespace may remain. -/
def parenMatch (s : Str) : Option (Str × Str) :=
  let P := (s.takeWhile isAb).length
  if P = 0 then none else
  let j := P + ((s.drop P).takeWhile isWSb).length
  match (s.drop j).head? with
  | some 40 =>
    let rest := s.drop (j + 1)
    let inner := rest.takeWhile (fun c => c != 41)
    if inner.length = rest.length then none  -- no closing parenthesis
    else
      let tail := rest.drop (inner.length + 1)
      if tail.all isWSb then
        match inner.dropWhile isWSb with
        | [] => (inner.getLast?).map (fun c => (s.take P, [c]))
        | f => some (s.take P, f)
      else none
  | _ => none

/-- `RE_PREFIX.match(s)`: `^(?P<form>[\w\-\.\' %]+)\s+(?P<base>[\w\-\.\' %]+)$`.
Returns `(form, base)`. Greedy backtracking: the longest class-`A` prefix
`form` (then the longest whitespace run) such that the remainder is a
non-empty all-class-`A` `base`. -/
def prefixMatch (s : Str) : Option (Str × Str) :=
  let P := (s.takeWhile isAb).length
  (descRange P).findSome? (fun k =>
    let rest := s.drop k
    let w := (rest.takeWhile isWSb).length
    (descRange w).findSome? (fun m =>
      let base := rest.drop m
      if base ≠ [] ∧ base.all isAb then some (s.take k, base) else none))

/-- `RE_SUFFIX.match(s)`: `^(?P<base>[\w\-\.\' %]+)[\s\-\_:,]+(?P<form>[\w\-\.\' %]+)$`.
Returns `(base, form)` with the same greedy backtracking order. -/
def suffixMatch (s : Str) : Option (Str × Str) :=
  let P := (s.takeWhile isAb).length
  (descRange P).findSome? (fun k =>
    let rest := s.drop k
    let w := (rest.takeWhile isSepB).length
    (descRange w).findSome? (fun m =>
      let form := rest.drop m
      if form ≠ [] ∧ form.all isAb then some (s.take k, form) else none))

/-- The cleaned, space-joined phrase of the token window `[st, st+len)`
tested by `_find_base_from_tokens`. -/
def windowPhrase (toks : List Str) (st len : Nat) : Str :=
  clean (joinSpace ((toks.drop st).take len))

/-- `_find_base_from_tokens(tokens)`: longest window first, then leftmost
start; the dictionary is passed explicitly (the Python code reads the
module-level memoized set, cf. `LoadState`). -/
def findBase (toks : List Str) (dict : List Str) : Option (Nat × Nat × Str) :=
  if dict.isEmpty then none else
  let n := toks.length
  (descRange n).findSome? (fun len =>
    (List.range (n - len + 1)).findSome? (fun st =>
      let ph := windowPhrase toks st len
      if ph ∈ dict then some (st, st + len, ph) else none))

/-- The region-detection loop of `normalize_name` step 4: remember the first
canonicalized variant token, drop every variant token from the list. -/
def splitRegion : List Str → Option Str × List Str
  | [] => (none, [])
  | t :: ts =>
    match lookupVariant t with
    | some r => (some r, (splitRegion ts).2)
    | none => ((splitRegion ts).1, t :: (splitRegion ts).2)

/-- `normalize_name(raw)` with the pokedex set passed explicitly. -/
def normalize (raw : Str) (dict : List Str) : Option Str :=
  if raw = [] then none else
  let s0 := strip raw
  if s0 = [] then none else
  let s := replaceUniStr s0
  -- early exact-match guard
  if (¬ dict.isEmpty) ∧ lowerStr (strip s) ∈ dict then some (lowerStr (strip s)) else
  -- 1) parentheses form
  match parenMatch s with
  | some (baseO, formO) =>
    let base := clean baseO
    let form := clean formO
    (match lookupVariant form with
     | some region => some (strip (region ++ 32 :: base))
     | none => some (strip (form ++ 32 :: base)))
  | none =>
  -- 2) prefix form
  match prefixMatch s with
  | some (formO, baseO) =>
    let form := clean formO
    let base := clean baseO
    (match lookupVariant form with
     | some region => some (strip (region ++ 32 :: base))
     | none => some (strip (form ++ 32 :: base)))
  | none =>
  -- 3) suffix/dash/comma form
  match suffixMatch s with
  | some (baseO, formO) =>
    let base := clean baseO
    let form := clean formO
    (match lookupVariant form with
     | some region => some (strip (region ++ 32 :: base))
     | none => some (strip (form ++ 32 :: base)))
  | none =>
  -- 4) token-based search against the pokedex
  let toks := (splitWs s).map clean
  if toks = [] then none else
  let rp := splitRegion toks
  match findBase rp.2 dict with
  | some (st, en, baseName) =>
    let forms := (rp.2.take st) ++ (rp.2.drop en)
    if forms ≠ [] then
      let formsPart := strip (joinSpace forms)
      (match rp.1 with
       | some r => some (strip (r ++ 32 :: (formsPart ++ 32 :: baseName)))
       | none => some (strip (formsPart ++ 32 :: baseName)))
    else
      (match rp.1 with
       | some r => some (strip (r ++ 32 :: baseName))
       | none => some baseName)
  | none =>
  -- 5) fallback heuristics
  match rp.1 with
  | some r =>
    let remainder := strip (joinSpace rp.2)
    if remainder ≠ [] then some (strip (r ++ 32 :: remainder)) else some r
  | none =>
  match rp.2 with
  | [] => none  -- unreachable: an all-variant token list sets the region
  | [t] => some t
  | t1 :: t2 :: ts =>
    let formsPart := strip (joinSpace (t1 :: t2 :: ts).dropLast)
    let baseGuess := ((t1 :: t2 :: ts).getLast?).getD []
    if formsPart ≠ [] then some (strip (formsPart ++ 32 :: baseGuess)) else some baseGuess

/-! ### Reference-dictionary loader (`_load_pokedex_names`) -/

/-- Parsed JSON values, as produced by `json.load`. -/
inductive Json where
  | null : Json
  | bool : Bool → Json
  | num : Int → Json
  | str : Str → Json
  | arr : List Json → Json
  | obj : List (Str × Json) → Json

/-- What reading the external source can yield: no file found
(`_find_pokedex_path` returns `None`), an exception while opening or parsing
(caught by the `except` clause), or a parsed value. -/
inductive SourceRead where
  | absent : SourceRead
  | malformed : SourceRead
  | ok : Json → SourceRead

/-- Python `str()` of a parsed JSON value. Scalars are modelled exactly;
for nested lists/objects (a pathological `name` field) the model returns a
fixed placeholder rather than reproducing `repr` recursively. -/
def pyStr : Json → Str
  | .null => S "None"
  | .bool true => S "True"
  | .bool false => S "False"
  | .num n => S (toString n)
  | .str s => s
  | .arr _ => S "[unrepresented]"
  | .obj _ => S "[unrepresented]"

/-- Lookup in a JSON object: `json.load` builds a `dict`, so a duplicated
key keeps its last value. -/
def objLookup (fields : List (Str × Json)) (k : Str) : Option Json :=
  (fields.reverse.find? (fun p => p.1 == k)).map (·.2)

/-- Key order of the built `dict`: first occurrence of each key. -/
def firstKeys (ks : List Str) : List Str :=
  ks.foldl (fun acc k => if k ∈ acc then acc else acc ++ [k]) []

/-- `data.values()` of the built `dict`. -/
def objValues (fields : List (Str × Json)) : List Json :=
  (firstKeys (fields.map (·.1))).filterMap (objLookup fields)

/-- One loop of `_load_pokedex_names`: add
`str(entry["name"]).strip().lower()` for every entry that is a dict with a
`"name"` key. The Python `set` is modelled as the list of inserted elements;
only membership is ever consumed. -/
def collectNames (entries : List Json) : List Str :=
  entries.foldl (fun acc e =>
    match e with
    | .obj fs =>
      (match objLookup fs (S "name") with
       | some v => acc ++ [lowerStr (strip (pyStr v))]
       | none => acc)
    | _ => acc) []

/-- The body of `_load_pokedex_names` after a successful parse: the
dict-shape sniffing over list / `{"pokemon": [...]}` / map-of-records. -/
def extractNames : Json → List Str
  | .arr entries => collectNames entries
  | .obj fs =>
    (match objLookup fs (S "pokemon") with
     | some (.arr entries) => collectNames entries
     | _ => collectNames (objValues fs))
  | _ => []

/-- The module-level memoization state (`_POKEDEX_LOADED`,
`_POKEDEX_NAMES_SET`). -/
structure LoadState where
  loaded : Bool
  names : List Str
deriving DecidableEq

/-- The state before any call: flag down, empty set. -/
def initialLoadState : LoadState := ⟨false, []⟩

/-- One call of `_load_pokedex_names`: return immediately when the flag is
set; otherwise read the source, degrade to the empty set when it is absent
or malformed (the `except Exception` clause), and set the flag. The
function is total: no outcome of the read escapes as an exception. -/
def loadStep (src : SourceRead) (st : LoadState) : LoadState :=
  if st.loaded then st
  else
    match src with
    | .absent => ⟨true, []⟩
    | .malformed => ⟨true, []⟩
    | .ok j => ⟨true, extractNames j⟩

/-! ### Output-form predicates -/

/-- No ASCII uppercase letter. -/
def noUpper (l : Str) : Bool := l.all (fun c => !(65 ≤ c && c ≤ 90))

/-- No run of two or more consecutive whitespace characters. -/
def noWsRun : Str → Bool
  | a :: b :: r => (!(isWSb a && isWSb b)) && noWsRun (b :: r)
  | _ => true

/-- The first character, when present, is not whitespace. -/
def headOk (t : Str) : Bool :=
  match t.head? with
  | some c => !isWSb c
  | none => true

/-- The last character, when present, is not whitespace. -/
def lastOk (t : Str) : Bool :=
  match t.getLast? with
  | some c => !isWSb c
  | none => true

/-- A well-formed piece of output: no whitespace run and non-whitespace
edges. -/
def goodStr (t : Str) : Prop :=
  noWsRun t = true ∧ headOk t = true ∧ lastOk t = true

/-- The concrete dictionary of the specification's scenario list:
`{"vulpix", "alolan vulpix", "meowth", "galarian meowth", "mr mime"}`. -/
def exampleDict : List Str :=
  [S "vulpix", S "alolan vulpix", S "meowth", S "galarian meowth", S "mr mime"]

/-- Classification of the values `normalize` returns on inputs drawn from the
regex character class `A` (word characters, hyphens, dots, apostrophes,
percent signs, spaces). Such a value is non-empty, lowercase, stripped and
punctuation-unified, and is either a dictionary member (the guard re-accepts
it) or a class-`A` string that re-parses to itself: either it splits at a
last space into a front the variant map fixes and a whitespace-free last
part, both already clean, or it is a single whitespace-free cleaned token
that the suffix template rejects and the variant map fixes or misses. -/
def OutClass (dict : List Str) (t : Str) : Prop :=
  t ≠ [] ∧ lowerStr t = t ∧ strip t = t ∧ replaceUniStr t = t ∧
  (t ∈ dict ∨
   ((∀ c ∈ t, isAb c = true) ∧
    ((∃ front b, t = front ++ 32 :: b ∧ b ≠ [] ∧ (∀ c ∈ b, isWSb c = false) ∧
       front ≠ [] ∧ clean front = front ∧ clean b = b ∧
       ∀ r, lookupVariant front = some r → r = front)
     ∨ ((∀ c ∈ t, isWSb c = false) ∧ clean t = t ∧ suffixMatch t = none ∧
        (lookupVariant t = none ∨ lookupVariant t = some t)))))

/-!
## Theorems
-/

/-- C3, counterexample: with the dictionary `{"mimikyu"}`,
`normalize("busted mimikyu totem")` returns `"busted mimikyu totem"`
(the prefix template fires), not the claimed `"busted totem mimikyu"`. -/
theorem c3_counterexample :
    normalize (S "busted mimikyu totem") [S "mimikyu"] = some (S "busted mimikyu totem") ∧
    some (S "busted mimikyu totem") ≠ some (S "busted totem mimikyu") := by
  constructor
  · decide
  · decide

/-- C3, amended: with the dictionary `{"mimikyu"}`, the prefix template
captures `"busted mimikyu totem"` before the subsequence matcher, returning
it unchanged; leftover-token composition (non-matched tokens joined in
original order before the matched base) happens only for inputs all three
templates reject, e.g. `"busted (x) mimikyu totem"` becomes
`"busted (x) totem mimikyu"`. -/
theorem c3_amended :
    normalize (S "busted mimikyu totem") [S "mimikyu"] = some (S "busted mimikyu totem") ∧
    normalize (S "busted (x) mimikyu totem") [S "mimikyu"] =
      some (S "busted (x) totem mimikyu") := by
  constructor
  · decide
  · decide

/-- C5, counterexample: with the scenario dictionary (which contains
`"mr mime"`, without a dot), `normalize("Mr. Mime")` returns `"mr. mime"`:
cleaning preserves dots, so the exact-match guard does not fire and the
claimed output `"mr mime"` is wrong. -/
theorem c5_counterexample :
    normalize (S "Mr. Mime") exampleDict = some (S "mr. mime") ∧
    some (S "mr. mime") ≠ some (S "mr mime") := by
  constructor
  · decide
  · decide

/-- C5, amended: `normalize("Mr. Mime")` with the scenario dictionary
returns `"mr. mime"` via the prefix template (cleaning keeps structural
punctuation, so the guard misses the dotless entry `"mr mime"`); when the
dictionary itself contains the dotted `"mr. mime"`, the exact-match guard
fires and returns it. -/
theorem c5_amended :
    normalize (S "Mr. Mime") exampleDict = some (S "mr. mime") ∧
    normalize (S "Mr. Mime") (S "mr. mime" :: exampleDict) = some (S "mr. mime") := by
  constructor
  · decide
  · decide

/-- C6, counterexample: `_VARIANT_MAP` has no `"hisui"` key, so the
classifier yields absent on `"hisui"`, not the claimed `"hisuian"`. -/
theorem c6_counterexample :
    lookupVariant (S "hisui") = none ∧
    (none : Option Str) ≠ some (S "hisuian") := by
  constructor
  · decide
  · decide

/-- C6, amended: every synonym family of the table canonicalizes as listed —
`"hisuia"`/`"hisuian"` to `"hisuian"` (the table has no `"hisui"` key),
`"alola"`/`"alolan"` to `"alolan"`, `"galar"`/`"galarian"` to `"galarian"`,
`"paldea"`/`"paldean"` to `"paldean"`, `"mega"` to `"mega"`,
`"gmax"`/`"gigantamax"` to `"gigantamax"` — and every token outside the
key set yields absent rather than an error. -/
theorem c6_amended :
    (lookupVariant (S "hisuia") = some (S "hisuian") ∧
     lookupVariant (S "hisuian") = some (S "hisuian") ∧
     lookupVariant (S "alola") = some (S "alolan") ∧
     lookupVariant (S "alolan") = some (S "alolan") ∧
     lookupVariant (S "galar") = some (S "galarian") ∧
     lookupVariant (S "galarian") = some (S "galarian") ∧
     lookupVariant (S "paldea") = some (S "paldean") ∧
     lookupVariant (S "paldean") = some (S "paldean") ∧
     lookupVariant (S "mega") = some (S "mega") ∧
     lookupVariant (S "gmax") = some (S "gigantamax") ∧
     lookupVariant (S "gigantamax") = some (S "gigantamax")) ∧
    ∀ t : Str, t ∉ variantPairs.map Prod.fst → lookupVariant t = none := by
  refine ⟨by decide, ?_⟩
  intro t ht
  have h : variantPairs.find? (fun p => p.1 == t) = none := by
    rw [List.find?_eq_none]
    intro x hx
    simp only [beq_iff_eq]
    intro hxt
    exact ht (hxt ▸ List.mem_map_of_mem Prod.fst hx)
  simp [lookupVariant, h]

/-- C6, witness for the amended theorem: a token outside the table, such as
`"totem"`, classifies to absent. -/
theorem c6_amended_witness : lookupVariant (S "totem") = none :=
  c6_amended.2 (S "totem") (by decide)

/-- C7: the three pattern templates canonicalize regions consistently —
with the scenario dictionary, `"Vulpix (Alolan)"`, `"Alolan Vulpix"` and
`"Vulpix-alola"` all normalize to `"alolan vulpix"`, and `"meowth-galar"`
normalizes to `"galarian meowth"`. -/
theorem c7_region_canonicalization :
    normalize (S "Vulpix (Alolan)") exampleDict = some (S "alolan vulpix") ∧
    normalize (S "Alolan Vulpix") exampleDict = some (S "alolan vulpix") ∧
    normalize (S "Vulpix-alola") exampleDict = some (S "alolan vulpix") ∧
    normalize (S "meowth-galar") exampleDict = some (S "galarian meowth") := by
  refine ⟨by decide, by decide, by decide, by decide⟩

/-- C8: the reference-dictionary loader degrades to the empty set when the
source is absent or malformed (the model's `loadStep` is a total function:
every read outcome, including an exception, produces a defined state rather
than propagating); after any first call the `loaded` flag is set, and a call
in a loaded state returns the state unchanged — so every subsequent call
returns the identical cached set without re-reading the source, whatever
that source now holds. -/
theorem c8_loader :
    loadStep .absent initialLoadState = ⟨true, []⟩ ∧
    loadStep .malformed initialLoadState = ⟨true, []⟩ ∧
    (∀ src st, st.loaded = true → loadStep src st = st) ∧
    (∀ src st, (loadStep src st).loaded = true) ∧
    (∀ src1 src2 st, loadStep src2 (loadStep src1 st) = loadStep src1 st) := by
  refine ⟨rfl, rfl, ?_, ?_, ?_⟩
  · intro src st h
    simp [loadStep, h]
  · intro src st
    by_cases h : st.loaded = true
    · simp [loadStep, h]
    · simp only [Bool.not_eq_true] at h
      cases src <;> simp [loadStep, h]
  · intro src1 src2 st
    by_cases h : st.loaded = true
    · simp [loadStep, h]
    · simp only [Bool.not_eq_true] at h
      cases src1 <;> simp [loadStep, h]

/-- C8, witness: a second call in an already-loaded state (here the state
cached from a successful load) returns it unchanged. -/
theorem c8_loader_witness :
    loadStep .malformed ⟨true, [S "pikachu"]⟩ = ⟨true, [S "pikachu"]⟩ :=
  c8_loader.2.2.1 .malformed ⟨true, [S "pikachu"]⟩ rfl

/-- `findSome?` misses exactly when the function misses on every element. -/
theorem findSome_none_iff {α β : Type} (f : α → Option β) :
    ∀ l : List α, l.findSome? f = none ↔ ∀ a ∈ l, f a = none := by
  intro l
  induction l with
  | nil => simp
  | cons a l ih =>
    rw [List.findSome?_cons]
    cases h : f a with
    | none => simp [h, ih]
    | some b => simp [h]

/-- A successful `findSome?` splits the list at the first hit: everything
before it misses. -/
theorem findSome_some_split {α β : Type} (f : α → Option β) :
    ∀ (l : List α) (b : β), l.findSome? f = some b →
      ∃ l1 a l2, l = l1 ++ a :: l2 ∧ f a = some b ∧ ∀ x ∈ l1, f x = none := by
  intro l
  induction l with
  | nil => intro b h; simp [List.findSome?] at h
  | cons a l ih =>
    intro b h
    rw [List.findSome?_cons] at h
    cases ha : f a with
    | some c =>
      rw [ha] at h
      exact ⟨[], a, l, by simp, by simpa using h.symm ▸ ha, by simp⟩
    | none =>
      rw [ha] at h
      obtain ⟨l1, x, l2, hl, hx, hmiss⟩ := ih b h
      exact ⟨a :: l1, x, l2, by simp [hl], hx, by
        intro y hy
        rcases List.mem_cons.mp hy with rfl | hy
        · exact ha
        · exact hmiss y hy⟩

/-- Membership in `descRange`. -/
theorem mem_descRange {n k : Nat} : k ∈ descRange n ↔ 1 ≤ k ∧ k ≤ n := by
  simp only [descRange, List.mem_map, List.mem_reverse, List.mem_range]
  constructor
  · rintro ⟨m, hm, rfl⟩; omega
  · rintro ⟨h1, h2⟩; exact ⟨k - 1, by omega, by omega⟩

/-- `descRange` is strictly decreasing. -/
theorem descRange_sorted (n : Nat) : (descRange n).Pairwise (· > ·) := by
  have h1 : ((List.range n).reverse).Pairwise (· > ·) := by
    rw [List.pairwise_reverse]
    exact List.pairwise_lt_range n
  exact List.pairwise_map.mpr (h1.imp (fun h => by omega))

/-- C2: the subsequence matcher returns a contiguous window whose
space-joined, cleaned phrase is a dictionary member, preferring the longest
window length and, among equal lengths, the leftmost start; it returns none
exactly when no window of any length is a member. -/
theorem c2_subsequence_matcher (toks dict : List Str) :
    (findBase toks dict = none ↔
      ∀ st len, 1 ≤ len → st + len ≤ toks.length →
        windowPhrase toks st len ∉ dict) ∧
    (∀ st en nm, findBase toks dict = some (st, en, nm) →
      st < en ∧ en ≤ toks.length ∧
      nm = windowPhrase toks st (en - st) ∧ nm ∈ dict ∧
      (∀ st2 len2, en - st < len2 → st2 + len2 ≤ toks.length →
        windowPhrase toks st2 len2 ∉ dict) ∧
      (∀ st2, st2 < st → windowPhrase toks st2 (en - st) ∉ dict)) := by
  classical
  set n := toks.length with hn
  by_cases hd : dict.isEmpty
  · constructor
    · rw [show findBase toks dict = none by simp [findBase, hd]]
      simp only [true_iff]
      intro st len _ _ hmem
      rw [List.isEmpty_iff] at hd
      simp [hd] at hmem
    · intro st en nm h
      simp [findBase, hd] at h
  · have hfb : findBase toks dict =
        (descRange n).findSome? (fun len =>
          (List.range (n - len + 1)).findSome? (fun st =>
            if windowPhrase toks st len ∈ dict then some (st, st + len, windowPhrase toks st len)
            else none)) := by
      simp [findBase, hd, hn]
    constructor
    · rw [hfb, findSome_none_iff]
      constructor
      · intro hall st len h1 h2 hmem
        have hlen : len ∈ descRange n := mem_descRange.mpr ⟨h1, by omega⟩
        have hinner := hall len hlen
        rw [findSome_none_iff] at hinner
        have hst : st ∈ List.range (n - len + 1) := List.mem_range.mpr (by omega)
        have := hinner st hst
        simp [hmem] at this
      · intro hall len hlen
        rw [findSome_none_iff]
        intro st hst
        rw [List.mem_range] at hst
        rw [mem_descRange] at hlen
        have : windowPhrase toks st len ∉ dict := hall st len hlen.1 (by omega)
        simp [this]
    · intro st en nm h
      rw [hfb] at h
      obtain ⟨L1, len, L2, hL, hlen, hLmiss⟩ := findSome_some_split _ _ _ h
      obtain ⟨M1, st0, M2, hM, hst0, hMmiss⟩ := findSome_some_split _ _ _ hlen
      have hif : windowPhrase toks st0 len ∈ dict ∧
          (st0, st0 + len, windowPhrase toks st0 len) = (st, en, nm) := by
        by_cases hc : windowPhrase toks st0 len ∈ dict
        · rw [if_pos hc] at hst0
          exact ⟨hc, Option.some_injective _ hst0⟩
        · rw [if_neg hc] at hst0; exact absurd hst0 (by simp)
      obtain ⟨hmem, heq⟩ := hif
      have hst' : st0 = st := congrArg Prod.fst heq
      have hen : st0 + len = en := congrArg Prod.fst (congrArg Prod.snd heq)
      have hnm : windowPhrase toks st0 len = nm := congrArg Prod.snd (congrArg Prod.snd heq)
      subst hst'
      have hlen_mem : len ∈ descRange n := hL ▸ List.mem_append_right L1 (List.mem_cons_self _ _)
      rw [mem_descRange] at hlen_mem
      have hst0_mem : st0 ∈ List.range (n - len + 1) :=
        hM ▸ List.mem_append_right M1 (List.mem_cons_self _ _)
      rw [List.mem_range] at hst0_mem
      have henst : en - st0 = len := by omega
      refine ⟨by omega, by omega, by rw [henst, hnm], hnm ▸ hmem, ?_, ?_⟩
      · -- no strictly longer window matches
        intro st2 len2 hgt hle hmem2
        have hlen2_mem : len2 ∈ descRange n := mem_descRange.mpr ⟨by omega, by omega⟩
        have hlen2_L1 : len2 ∈ L1 := by
          have hpw := descRange_sorted n
          rw [hL, List.pairwise_append] at hpw
          rcases List.mem_append.mp (hL ▸ hlen2_mem : len2 ∈ L1 ++ len :: L2) with h1 | h2
          · exact h1
          · rcases List.mem_cons.mp h2 with rfl | h3
            · omega
            · have := (List.pairwise_cons.mp hpw.2.1).1 len2 h3
              omega
        have := hLmiss len2 hlen2_L1
        rw [findSome_none_iff] at this
        have hst2 : st2 ∈ List.range (n - len2 + 1) := List.mem_range.mpr (by omega)
        have := this st2 hst2
        simp [hmem2] at this
      · -- no equal-length window starts earlier
        intro st2 hlt hmem2
        rw [henst] at hmem2
        have hst2_mem : st2 ∈ List.range (n - len + 1) := List.mem_range.mpr (by omega)
        have hst2_M1 : st2 ∈ M1 := by
          have hpw : (List.range (n - len + 1)).Pairwise (· < ·) := List.pairwise_lt_range _
          rw [hM, List.pairwise_append] at hpw
          rcases List.mem_append.mp (hM ▸ hst2_mem : st2 ∈ M1 ++ st0 :: M2) with h1 | h2
          · exact h1
          · rcases List.mem_cons.mp h2 with rfl | h3
            · omega
            · have := (List.pairwise_cons.mp hpw.2.1).1 st2 h3
              omega
        have := hMmiss st2 hst2_M1
        simp [hmem2] at this

/-- C2, witness: on tokens `["mr", "mime", "x"]` with dictionary
`{"mr mime", "mime"}` the matcher picks `(0, 2, "mr mime")`, and the
theorem's longest-first clause rules the full three-token phrase out of the
dictionary. -/
theorem c2_subsequence_matcher_witness :
    windowPhrase [S "mr", S "mime", S "x"] 0 3 ∉ [S "mr mime", S "mime"] :=
  ((c2_subsequence_matcher [S "mr", S "mime", S "x"] [S "mr mime", S "mime"]).2
    0 2 (S "mr mime") (by decide)).2.2.2.2.1 0 3 (by decide) (by decide)

/-- Unfolding of the whitespace class. -/
theorem isWSb_iff {n : Nat} :
    isWSb n = true ↔ n = 32 ∨ n = 9 ∨ n = 10 ∨ n = 11 ∨ n = 12 ∨ n = 13 := by
  simp only [isWSb, Bool.or_eq_true, beq_iff_eq]
  omega

/-- `str.upper()` maps no character into or out of the whitespace class. -/
theorem isWSb_pyUpper (c : Nat) : isWSb (pyUpper c) = isWSb c := by
  rw [Bool.eq_iff_iff, isWSb_iff, isWSb_iff]
  unfold pyUpper
  split_ifs with h <;> omega

/-- Lowercasing after uppercasing is plain lowercasing (ASCII). -/
theorem pyLower_pyUpper (c : Nat) : pyLower (pyUpper c) = pyLower c := by
  unfold pyLower pyUpper
  split_ifs <;> omega

/-- A character fixed by the punctuation unification stays fixed after
`str.upper()`. -/
theorem replaceUni_pyUpper (c : Nat) (h : replaceUni c = c) :
    replaceUni (pyUpper c) = pyUpper c := by
  unfold replaceUni pyUpper at *
  split_ifs at h ⊢ <;> omega

/-- Pointwise-fixed maps are the identity. -/
theorem map_eq_self_of_fixed {f : Nat → Nat} :
    ∀ l : Str, (∀ c ∈ l, f c = c) → l.map f = l := by
  intro l h
  induction l with
  | nil => rfl
  | cons a t ih =>
    rw [List.map_cons, h a (List.mem_cons_self a t),
      ih (fun c hc => h c (List.mem_cons_of_mem a hc))]

/-- Dropping leading whitespace skips a whitespace block. -/
theorem stripL_ws_append {w x : Str} (hw : ∀ c ∈ w, isWSb c = true) :
    stripL (w ++ x) = stripL x := by
  induction w with
  | nil => rfl
  | cons a t ih =>
    rw [List.cons_append]
    unfold stripL
    rw [List.dropWhile_cons_of_pos (hw a (List.mem_cons_self a t))]
    exact ih (fun c hc => hw c (List.mem_cons_of_mem a hc))

/-- Dropping trailing whitespace skips a trailing whitespace block. -/
theorem stripR_append_ws {w x : Str} (hw : ∀ c ∈ w, isWSb c = true) :
    stripR (x ++ w) = stripR x := by
  unfold stripR
  rw [List.reverse_append]
  have : (w.reverse ++ x.reverse).dropWhile isWSb = x.reverse.dropWhile isWSb :=
    stripL_ws_append (fun c hc => hw c (List.mem_reverse.mp hc))
  rw [this]

/-- `stripL` never lengthens a string. -/
theorem length_stripL_le (l : Str) : (stripL l).length ≤ l.length :=
  (List.dropWhile_sublist _).length_le

/-- `stripR` never lengthens a string. -/
theorem length_stripR_le (l : Str) : (stripR l).length ≤ l.length := by
  unfold stripR
  rw [List.length_reverse]
  exact le_trans ((List.dropWhile_sublist _).length_le) (by rw [List.length_reverse])

/-- A stripped string keeps its leading edge under `stripL`. -/
theorem stripL_eq_self {x : Str} (h : strip x = x) : stripL x = x := by
  cases x with
  | nil => rfl
  | cons a t =>
    by_cases ha : isWSb a = true
    · exfalso
      have h1 : stripL (a :: t) = stripL t := by
        unfold stripL
        rw [List.dropWhile_cons_of_pos ha]
      have h2 : (strip (a :: t)).length ≤ t.length := by
        unfold strip
        rw [h1]
        exact le_trans (length_stripR_le _) (length_stripL_le _)
      rw [h] at h2
      simp at h2
    · unfold stripL
      rw [List.dropWhile_cons_of_neg ha]

/-- Whitespace padding on both sides is removed by `strip`. -/
theorem strip_pad {w1 w2 x : Str} (hx : strip x = x)
    (hw1 : ∀ c ∈ w1, isWSb c = true) (hw2 : ∀ c ∈ w2, isWSb c = true) :
    strip (w1 ++ x ++ w2) = x := by
  unfold strip
  rw [List.append_assoc, stripL_ws_append hw1]
  cases hx0 : x with
  | nil =>
    rw [List.nil_append]
    have h2 : stripL w2 = [] := by
      have h3 : stripL (w2 ++ ([] : Str)) = stripL ([] : Str) := stripL_ws_append hw2
      rw [List.append_nil] at h3
      exact h3
    rw [h2]
    rfl
  | cons a t =>
    have hL : stripL x = x := stripL_eq_self hx
    have ha : isWSb a = false := by
      by_contra hcon
      rw [Bool.not_eq_false] at hcon
      rw [hx0] at hL
      unfold stripL at hL
      rw [List.dropWhile_cons_of_pos hcon] at hL
      have hlen := congrArg List.length hL
      have hle : (List.dropWhile isWSb t).length ≤ t.length :=
        (List.dropWhile_sublist _).length_le
      simp at hlen
      omega
    have h1 : stripL (x ++ w2) = x ++ w2 := by
      rw [hx0]
      unfold stripL
      rw [List.cons_append, List.dropWhile_cons_of_neg (by rw [ha]; simp)]
    rw [← hx0, h1, stripR_append_ws hw2]
    have : stripR x = x := by
      have := hx
      unfold strip at this
      rw [hL] at this
      exact this
    rw [this]

/-- The early exact-match guard: when the cleaned input is a dictionary
member, `normalize` returns it, before any pattern parsing or token
heuristic. -/
theorem normalize_guard {raw : Str} {dict : List Str} (h1 : raw ≠ [])
    (h2 : strip raw ≠ [])
    (h3 : lowerStr (strip (replaceUniStr (strip raw))) ∈ dict) :
    normalize raw dict = some (lowerStr (strip (replaceUniStr (strip raw)))) := by
  have hdict : ¬ dict.isEmpty := by
    cases dict with
    | nil => simp at h3
    | cons a t => simp
  unfold normalize
  rw [if_neg h1, if_neg h2, if_pos ⟨hdict, h3⟩]

/-- C1, counterexample: the claim fails as stated. A lowercase dictionary
entry containing a curly apostrophe (which the loader does not rewrite) is
not returned unchanged — `normalize("sirfetch’d")` with dictionary
`{"sirfetch’d"}` yields `"sirfetch'd"` — and an internally re-spaced
variant of the entry `"alola vulpix"` is not cleaned back to it:
`normalize("alola  vulpix")` yields `"alolan vulpix"`. -/
theorem c1_counterexample :
    (normalize (S "sirfetch’d") [S "sirfetch’d"] = some (S "sirfetch'd") ∧
      lowerStr (S "sirfetch’d") = S "sirfetch’d" ∧
      S "sirfetch'd" ≠ S "sirfetch’d") ∧
    (normalize (S "alola  vulpix") [S "alola vulpix"] = some (S "alolan vulpix") ∧
      S "alolan vulpix" ≠ S "alola vulpix") := by
  refine ⟨⟨by decide, by decide, by decide⟩, by decide, by decide⟩

/-- C1, amended: for every non-empty dictionary entry `d` that is stripped,
lowercase and free of the unified punctuation marks (curly quotes,
en-dash), `normalize(d) = d`; the same holds for the uppercased variant of
`d` and for variants re-spaced with extra leading/trailing whitespace
(internal re-spacing can change the result, and entries containing curly
punctuation are rewritten). Moreover the exact-match guard fires before any
pattern parsing: whenever the cleaned input is a member, it is returned. -/
theorem c1_exact_match (dict : List Str) (d : Str)
    (hmem : d ∈ dict) (hne : d ≠ []) (hstrip : strip d = d)
    (hlower : lowerStr d = d) (huni : ∀ c ∈ d, replaceUni c = c) :
    normalize d dict = some d ∧
    normalize (upperStr d) dict = some d ∧
    (∀ w1 w2 : Str, (∀ c ∈ w1, isWSb c = true) → (∀ c ∈ w2, isWSb c = true) →
      normalize (w1 ++ d ++ w2) dict = some d ∧
      normalize (w1 ++ upperStr d ++ w2) dict = some d) ∧
    (∀ raw : Str, raw ≠ [] → strip raw ≠ [] →
      lowerStr (strip (replaceUniStr (strip raw))) ∈ dict →
      normalize raw dict = some (lowerStr (strip (replaceUniStr (strip raw))))) := by
  have hupper_strip : strip (upperStr d) = upperStr d := by
    have hcomp : (isWSb ∘ pyUpper) = isWSb := funext isWSb_pyUpper
    have hcommute : strip (upperStr d) = upperStr (strip d) := by
      unfold strip stripL stripR upperStr
      simp only [List.dropWhile_map, ← List.map_reverse, hcomp]
    rw [hcommute, hstrip]
  have hupper_ne : upperStr d ≠ [] := by
    unfold upperStr
    simpa using hne
  have hupper_uni : ∀ c ∈ upperStr d, replaceUni c = c := by
    intro c hc
    obtain ⟨a, ha, rfl⟩ := List.mem_map.mp hc
    exact replaceUni_pyUpper a (huni a ha)
  have hupper_lower : lowerStr (upperStr d) = d := by
    unfold lowerStr upperStr
    rw [List.map_map]
    have hcomp : (pyLower ∘ pyUpper) = pyLower := funext pyLower_pyUpper
    rw [hcomp]
    exact hlower
  have key : ∀ x : Str, strip x = x → x ≠ [] → (∀ c ∈ x, replaceUni c = c) →
      lowerStr x = d →
      ∀ w1 w2 : Str, (∀ c ∈ w1, isWSb c = true) → (∀ c ∈ w2, isWSb c = true) →
        normalize (w1 ++ x ++ w2) dict = some d := by
    intro x hxs hxne hxuni hxlow w1 w2 hw1 hw2
    have hpad : strip (w1 ++ x ++ w2) = x := strip_pad hxs hw1 hw2
    have hrepl : replaceUniStr x = x := map_eq_self_of_fixed x hxuni
    have hval : lowerStr (strip (replaceUniStr (strip (w1 ++ x ++ w2)))) = d := by
      rw [hpad, hrepl, hxs, hxlow]
    have hraw_ne : w1 ++ x ++ w2 ≠ [] := by
      intro hcon
      rcases List.append_eq_nil.mp hcon with ⟨h1, _⟩
      rcases List.append_eq_nil.mp h1 with ⟨_, h2⟩
      exact hxne h2
    have := normalize_guard hraw_ne (by rw [hpad]; exact hxne) (by rw [hval]; exact hmem)
    rw [this, hval]
  refine ⟨?_, ?_, ?_, ?_⟩
  · have := key d hstrip hne huni hlower [] [] (by simp) (by simp)
    simpa using this
  · have := key (upperStr d) hupper_strip hupper_ne hupper_uni hupper_lower [] []
      (by simp) (by simp)
    simpa using this
  · intro w1 w2 hw1 hw2
    exact ⟨key d hstrip hne huni hlower w1 w2 hw1 hw2,
      key (upperStr d) hupper_strip hupper_ne hupper_uni hupper_lower w1 w2 hw1 hw2⟩
  · intro raw hr1 hr2 hr3
    exact normalize_guard hr1 hr2 hr3

/-- C1, witness: `"mr mime"` of the scenario dictionary is returned
unchanged, also when uppercased and padded with whitespace. -/
theorem c1_exact_match_witness :
    normalize ([32] ++ upperStr (S "mr mime") ++ [9]) exampleDict = some (S "mr mime") :=
  ((c1_exact_match exampleDict (S "mr mime") (by decide) (by decide) (by decide)
    (by decide) (by decide)).2.2.1 [32] [9] (by decide) (by decide)).2

/-- Characters of the regex class `A` are fixed by the punctuation
unification (they are ASCII). -/
theorem replaceUni_of_isAb {c : Nat} (h : isAb c = true) : replaceUni c = c := by
  simp only [isAb, isWordB, Bool.or_eq_true, Bool.and_eq_true, decide_eq_true_eq,
    beq_iff_eq] at h
  unfold replaceUni
  split_ifs <;> omega

/-- Characters of the regex class `A` are fixed by quote unification. -/
theorem repQuote_of_isAb {c : Nat} (h : isAb c = true) : repQuote c = c := by
  simp only [isAb, isWordB, Bool.or_eq_true, Bool.and_eq_true, decide_eq_true_eq,
    beq_iff_eq] at h
  unfold repQuote
  split_ifs <;> omega

/-- Lowercasing maps no character into or out of the whitespace class. -/
theorem isWSb_pyLower (c : Nat) : isWSb (pyLower c) = isWSb c := by
  rw [Bool.eq_iff_iff, isWSb_iff, isWSb_iff]
  unfold pyLower
  split_ifs <;> omega

/-- Quote unification maps no character into or out of the whitespace class. -/
theorem isWSb_repQuote (c : Nat) : isWSb (repQuote c) = isWSb c := by
  rw [Bool.eq_iff_iff, isWSb_iff, isWSb_iff]
  unfold repQuote
  split_ifs <;> omega

/-- Lowercased characters are never ASCII uppercase. -/
theorem noUpper_lowerStr (l : Str) : noUpper (lowerStr l) = true := by
  unfold noUpper lowerStr
  rw [List.all_eq_true]
  intro c hc
  obtain ⟨a, _, rfl⟩ := List.mem_map.mp hc
  unfold pyLower
  split_ifs with h <;> simp <;> omega

/-- `strip` splits off all-whitespace margins. -/
theorem strip_decomp (l : Str) :
    ∃ w1 w2, l = w1 ++ strip l ++ w2 ∧ (∀ c ∈ w1, isWSb c = true) ∧
      (∀ c ∈ w2, isWSb c = true) := by
  refine ⟨l.takeWhile isWSb, ((stripL l).reverse.takeWhile isWSb).reverse, ?_, ?_, ?_⟩
  · conv_lhs => rw [← List.takeWhile_append_dropWhile isWSb l]
    have h2 : stripL l = strip l ++ ((stripL l).reverse.takeWhile isWSb).reverse := by
      unfold strip stripR
      conv_lhs => rw [← List.reverse_reverse (stripL l),
        ← List.takeWhile_append_dropWhile isWSb (stripL l).reverse]
      rw [List.reverse_append]
    rw [List.append_assoc, ← h2]
    rfl
  · intro c hc
    exact List.mem_takeWhile_imp hc
  · intro c hc
    exact List.mem_takeWhile_imp (List.mem_reverse.mp hc)

/-- Strings with non-whitespace edges are fixed by `strip`. -/
theorem strip_eq_self {l : Str} (hh : ∀ c, l.head? = some c → isWSb c = false)
    (hl : ∀ c, l.getLast? = some c → isWSb c = false) : strip l = l := by
  cases l with
  | nil => rfl
  | cons a t =>
    have h1 : stripL (a :: t) = a :: t := by
      unfold stripL
      rw [List.dropWhile_cons_of_neg (by rw [hh a rfl]; simp)]
    have h2 : stripR (a :: t) = a :: t := by
      unfold stripR
      cases hrev : (a :: t).reverse with
      | nil => exact absurd (congrArg List.length hrev) (by simp)
      | cons b rb =>
        have hb : isWSb b = false := by
          apply hl
          rw [← List.head?_reverse, hrev]
          rfl
        rw [List.dropWhile_cons_of_neg (by rw [hb]; simp), ← hrev, List.reverse_reverse]
    unfold strip
    rw [h1, h2]

/-- The head surviving a whitespace `dropWhile` is not whitespace. -/
theorem head_dropWhile_ws {l : Str} {c : Nat}
    (h : (l.dropWhile isWSb).head? = some c) : isWSb c = false := by
  induction l with
  | nil => simp at h
  | cons a t ih =>
    by_cases ha : isWSb a = true
    · rw [List.dropWhile_cons_of_pos ha] at h
      exact ih h
    · rw [List.dropWhile_cons_of_neg ha] at h
      simp only [List.head?_cons, Option.some_inj] at h
      subst h
      rw [Bool.not_eq_true] at ha
      exact ha

/-- `strip` is idempotent. -/
theorem strip_idem (l : Str) : strip (strip l) = strip l := by
  apply strip_eq_self
  · intro c hc
    have h1 : (stripL l) = strip l ++ ((stripL l).reverse.takeWhile isWSb).reverse := by
      unfold strip stripR
      conv_lhs => rw [← List.reverse_reverse (stripL l),
        ← List.takeWhile_append_dropWhile isWSb (stripL l).reverse]
      rw [List.reverse_append]
    cases hs : strip l with
    | nil => rw [hs] at hc; simp at hc
    | cons a rest =>
      rw [hs] at hc
      simp only [List.head?_cons, Option.some_inj] at hc
      have h2 : (stripL l).head? = some a := by
        rw [h1, hs]
        rfl
      rw [← hc]
      exact head_dropWhile_ws h2
  · intro c hc
    unfold strip stripR at hc
    rw [List.getLast?_reverse] at hc
    exact head_dropWhile_ws hc

/-- `descRange` peels its top element. -/
theorem descRange_succ (n : Nat) : descRange (n + 1) = (n + 1) :: descRange n := by
  unfold descRange
  rw [List.range_succ, List.reverse_append]
  rfl

/-- `descRange n` splits at any of its members, with larger elements before. -/
theorem descRange_split {k n : Nat} (h1 : 1 ≤ k) (h2 : k ≤ n) :
    ∃ l1, descRange n = l1 ++ k :: descRange (k - 1) ∧ ∀ x ∈ l1, k < x := by
  induction n with
  | zero => omega
  | succ n ih =>
    by_cases hk : k = n + 1
    · subst hk
      refine ⟨[], ?_, by simp⟩
      rw [descRange_succ]
      simp
    · obtain ⟨l1, hl, hx⟩ := ih (by omega)
      refine ⟨(n + 1) :: l1, ?_, ?_⟩
      · rw [descRange_succ, hl]
        rfl
      · intro x hmem
        rcases List.mem_cons.mp hmem with rfl | h
        · omega
        · exact hx x h

/-- `findSome?` over a split list whose front misses lands on the split
point. -/
theorem findSome_append_first {α β : Type} {f : α → Option β} {l1 l2 : List α}
    {a : α} {v : β} (h1 : ∀ x ∈ l1, f x = none) (h2 : f a = some v) :
    (l1 ++ a :: l2).findSome? f = some v := by
  induction l1 with
  | nil => rw [List.nil_append, List.findSome?_cons, h2]
  | cons x t ih =>
    rw [List.cons_append, List.findSome?_cons, h1 x (List.mem_cons_self x t)]
    exact ih (fun y hy => h1 y (List.mem_cons_of_mem x hy))

/-- An all-class-`A` string (no parenthesis in class `A`) never matches the
parenthetical template. -/
theorem parenMatch_allA {s : Str} (h : ∀ c ∈ s, isAb c = true) :
    parenMatch s = none := by
  unfold parenMatch
  rw [List.takeWhile_eq_self_iff.mpr h]
  cases s with
  | nil => rfl
  | cons a t =>
    rw [if_neg (by simp)]
    simp [List.drop_length]

/-- On a string of the shape `front ++ whitespace :: lastWord` (all class
`A`, `front` non-empty, `lastWord` non-empty and whitespace-free) the prefix
template splits at the last whitespace boundary: greedy backtracking returns
`(front, lastWord)`. -/
theorem prefixMatch_split {front b : Str} {wc : Nat}
    (hA : ∀ c ∈ front ++ wc :: b, isAb c = true)
    (hfront : front ≠ []) (hwc : isWSb wc = true)
    (hb : b ≠ []) (hbn : ∀ c ∈ b, isWSb c = false) :
    prefixMatch (front ++ wc :: b) = some (front, b) := by
  set s := front ++ wc :: b with hs
  have hunfold : prefixMatch s = (descRange (s.takeWhile isAb).length).findSome? (fun k =>
      (descRange ((s.drop k).takeWhile isWSb).length).findSome? (fun m =>
        if (s.drop k).drop m ≠ [] ∧ ((s.drop k).drop m).all isAb
        then some (s.take k, (s.drop k).drop m) else none)) := rfl
  have hP : (s.takeWhile isAb).length = s.length := by
    rw [List.takeWhile_eq_self_iff.mpr hA]
  have hlen : s.length = front.length + 1 + b.length := by
    rw [hs]; simp; omega
  have hfl : 1 ≤ front.length := by
    cases front with
    | nil => exact absurd rfl hfront
    | cons x t => simp
  -- the inner search at the split point succeeds
  have hsplit_drop : s.drop front.length = wc :: b := by
    rw [hs, List.drop_left]
  have hsplit_take : s.take front.length = front := by
    rw [hs, List.take_left]
  have hhit : (descRange ((s.drop front.length).takeWhile isWSb).length).findSome?
      (fun m =>
        if (s.drop front.length).drop m ≠ [] ∧ ((s.drop front.length).drop m).all isAb
        then some (s.take front.length, (s.drop front.length).drop m) else none) =
      some (front, b) := by
    rw [hsplit_drop, hsplit_take]
    have htw : (wc :: b).takeWhile isWSb = [wc] := by
      rw [List.takeWhile_cons_of_pos hwc]
      cases hb0 : b with
      | nil => exact absurd hb0 hb
      | cons x t =>
        rw [List.takeWhile_cons_of_neg]
        rw [hbn x (by rw [hb0]; exact List.mem_cons_self x t)]
        simp
    rw [htw]
    rw [show descRange ([wc].length) = [1] from rfl, List.findSome?_cons]
    rw [show (wc :: b).drop 1 = b from rfl]
    rw [if_pos ⟨hb, List.all_eq_true.mpr (fun c hc =>
      hA c (List.mem_append_right front (List.mem_cons_of_mem wc hc)))⟩]
  -- every larger split point fails: the remainder starts inside the last word
  have hmiss : ∀ k, front.length < k →
      (descRange ((s.drop k).takeWhile isWSb).length).findSome? (fun m =>
        if (s.drop k).drop m ≠ [] ∧ ((s.drop k).drop m).all isAb
        then some (s.take k, (s.drop k).drop m) else none) = none := by
    intro k hk1
    have hrest : s.drop k = b.drop (k - front.length - 1) := by
      rw [hs]
      rw [List.drop_append_eq_append_drop]
      rw [List.drop_eq_nil_of_le (by omega), List.nil_append]
      have hk3 : k - front.length = (k - front.length - 1) + 1 := by omega
      rw [hk3]
      rfl
    rw [hrest]
    have htw : (b.drop (k - front.length - 1)).takeWhile isWSb = [] := by
      cases hd : b.drop (k - front.length - 1) with
      | nil => rfl
      | cons x t =>
        rw [List.takeWhile_cons_of_neg]
        have hx : x ∈ b := by
          have hx0 : x ∈ b.drop (k - front.length - 1) := by
            rw [hd]; exact List.mem_cons_self x t
          exact List.mem_of_mem_drop hx0
        rw [hbn x hx]
        simp
    rw [htw]
    rfl
  rw [hunfold, hP]
  obtain ⟨l1, hl, hgt⟩ := descRange_split (by omega : 1 ≤ front.length)
    (by omega : front.length ≤ s.length)
  rw [hl]
  exact findSome_append_first (fun x hx => hmiss x (hgt x hx)) hhit

/-- C10: for a pre-split input of two or more words over word characters,
hyphens, dots, apostrophes, percent signs and spaces (hence no parentheses),
whose cleaned form is not a dictionary member, `normalize` answers from the
prefix template: the cleaned run of words before the last whitespace
boundary (canonicalized when that run is a single variant-map key), a
space, and the cleaned last word — independently of the dictionary, so the
subsequence matcher is never consulted. The input is quantified through its
last-whitespace decomposition `front ++ wc :: b`. -/
theorem c10_template_dominance (front b : Str) (wc : Nat) (dict : List Str)
    (hA : ∀ c ∈ front ++ wc :: b, isAb c = true)
    (hwc : isWSb wc = true)
    (hb : b ≠ []) (hbn : ∀ c ∈ b, isWSb c = false)
    (hstrip : strip (front ++ wc :: b) = front ++ wc :: b)
    (hmem : lowerStr (front ++ wc :: b) ∉ dict) :
    normalize (front ++ wc :: b) dict =
      (match lookupVariant (clean front) with
       | some r => some (strip (r ++ 32 :: clean b))
       | none => some (strip (clean front ++ 32 :: clean b))) ∧
    (∀ w1 w2 : Str, (∀ c ∈ w1, isWSb c = true) → (∀ c ∈ w2, isWSb c = true) →
      normalize (w1 ++ (front ++ wc :: b) ++ w2) dict =
        normalize (front ++ wc :: b) dict) ∧
    (∀ dict2, lowerStr (front ++ wc :: b) ∉ dict2 →
      normalize (front ++ wc :: b) dict2 = normalize (front ++ wc :: b) dict) := by
  set s := front ++ wc :: b with hs
  have hfront : front ≠ [] := by
    intro hcon
    rw [hcon] at hs
    rw [hs] at hstrip
    simp only [List.nil_append] at hstrip
    have : stripL (wc :: b) = stripL b := by
      unfold stripL
      rw [List.dropWhile_cons_of_pos hwc]
    have hlen : (strip (wc :: b)).length ≤ b.length := by
      unfold strip
      rw [this]
      exact le_trans (length_stripR_le _) (length_stripL_le _)
    rw [hstrip] at hlen
    simp at hlen
  have hne : s ≠ [] := by
    rw [hs]
    intro hcon
    rcases List.append_eq_nil.mp hcon with ⟨_, h2⟩
    exact absurd h2 (by simp)
  have hrepl : replaceUniStr s = s :=
    map_eq_self_of_fixed s (fun c hc => replaceUni_of_isAb (hA c hc))
  have key : ∀ (d : List Str) (w1 w2 : Str), (∀ c ∈ w1, isWSb c = true) →
      (∀ c ∈ w2, isWSb c = true) → lowerStr s ∉ d →
      normalize (w1 ++ s ++ w2) d = (match lookupVariant (clean front) with
        | some r => some (strip (r ++ 32 :: clean b))
        | none => some (strip (clean front ++ 32 :: clean b))) := by
    intro d w1 w2 hw1 hw2 hd
    have hpm : prefixMatch s = some (front, b) := prefixMatch_split hA hfront hwc hb hbn
    have hpad : strip (w1 ++ s ++ w2) = s := strip_pad hstrip hw1 hw2
    have hne2 : w1 ++ s ++ w2 ≠ [] := by
      intro hcon
      rcases List.append_eq_nil.mp hcon with ⟨h1, _⟩
      rcases List.append_eq_nil.mp h1 with ⟨_, h2⟩
      exact hne h2
    unfold normalize
    rw [if_neg hne2]
    simp only [hpad]
    rw [if_neg hne]
    rw [hrepl, hstrip]
    rw [if_neg (fun hcon => hd hcon.2)]
    rw [parenMatch_allA hA]
    rw [hpm]
  have hmain : normalize s dict = (match lookupVariant (clean front) with
      | some r => some (strip (r ++ 32 :: clean b))
      | none => some (strip (clean front ++ 32 :: clean b))) := by
    have h0 := key dict [] [] (by simp) (by simp) hmem
    rw [List.nil_append, List.append_nil] at h0
    exact h0
  refine ⟨hmain, ?_, ?_⟩
  · intro w1 w2 hw1 hw2
    rw [key dict w1 w2 hw1 hw2 hmem, hmain]
  · intro dict2 hmem2
    have h2 := key dict2 [] [] (by simp) (by simp) hmem2
    rw [List.nil_append, List.append_nil] at h2
    rw [h2, hmain]

/-- C10, witness: `"Busted Totem"` with an empty dictionary resolves through
the prefix template to `"busted totem"`. -/
theorem c10_template_dominance_witness :
    normalize (S "Busted Totem") [] = some (S "busted totem") := by
  have h := (c10_template_dominance (S "Busted") (S "Totem") 32 [] (by decide)
    (by decide) (by decide) (by decide) (by decide) (by decide)).1
  rw [show S "Busted Totem" = S "Busted" ++ 32 :: S "Totem" from by decide]
  rw [h]
  decide

/-- Both conjuncts of a true `&&`. -/
theorem band_true {a b : Bool} (h : (a && b) = true) : a = true ∧ b = true := by
  simp at h
  exact h

/-- `noWsRun` weakens to the tail. -/
theorem noWsRun_tail {a : Nat} {t : Str} (h : noWsRun (a :: t) = true) :
    noWsRun t = true := by
  cases t with
  | nil => rfl
  | cons b r =>
    unfold noWsRun at h
    exact (band_true h).2

/-- `noWsRun` survives dropping a left part. -/
theorem noWsRun_append_right {x y : Str} (h : noWsRun (x ++ y) = true) :
    noWsRun y = true := by
  induction x with
  | nil => exact h
  | cons a t ih => exact ih (noWsRun_tail h)

/-- Extending with a head whose pairing is safe. -/
theorem noWsRun_cons_of {a : Nat} {t : Str} (hws : noWsRun t = true)
    (hp : ∀ c, t.head? = some c → ¬(isWSb a = true ∧ isWSb c = true)) :
    noWsRun (a :: t) = true := by
  cases t with
  | nil => rfl
  | cons b r =>
    unfold noWsRun
    rw [Bool.and_eq_true]
    refine ⟨?_, hws⟩
    have hb := hp b rfl
    cases ha : isWSb a <;> cases hb2 : isWSb b <;> simp_all

/-- `noWsRun` survives dropping a right part. -/
theorem noWsRun_append_left {x y : Str} (h : noWsRun (x ++ y) = true) :
    noWsRun x = true := by
  induction x with
  | nil => rfl
  | cons a t ih =>
    rw [List.cons_append] at h
    apply noWsRun_cons_of (ih (noWsRun_tail h))
    intro c hc hcon
    cases t with
    | nil => simp at hc
    | cons b r =>
      simp only [List.head?_cons, Option.some_inj] at hc
      subst hc
      rw [List.cons_append] at h
      unfold noWsRun at h
      have h1 := (band_true h).1
      rw [hcon.1, hcon.2] at h1
      simp at h1

/-- Whitespace-free strings have no whitespace run. -/
theorem noWsRun_wsfree {t : Str} (h : ∀ c ∈ t, isWSb c = false) :
    noWsRun t = true := by
  induction t with
  | nil => rfl
  | cons a r ih =>
    apply noWsRun_cons_of (ih (fun c hc => h c (List.mem_cons_of_mem a hc)))
    intro c hc hcon
    rw [h a (List.mem_cons_self a r)] at hcon
    simp at hcon

/-- Whitespace-free strings have a safe head. -/
theorem headOk_wsfree {t : Str} (h : ∀ c ∈ t, isWSb c = false) :
    headOk t = true := by
  unfold headOk
  cases t with
  | nil => rfl
  | cons a r =>
    show (!isWSb a) = true
    rw [h a (List.mem_cons_self a r)]
    rfl

/-- Whitespace-free strings have a safe last character. -/
theorem lastOk_wsfree {t : Str} (h : ∀ c ∈ t, isWSb c = false) :
    lastOk t = true := by
  unfold lastOk
  cases hg : t.getLast? with
  | none => rfl
  | some c =>
    have hc : c ∈ t := by
      rw [← List.head?_reverse] at hg
      exact List.mem_reverse.mp (List.mem_of_mem_head? hg)
    show (!isWSb c) = true
    rw [h c hc]
    rfl

/-- Characters of `strip l` come from `l`. -/
theorem mem_strip {c : Nat} {l : Str} (h : c ∈ strip l) : c ∈ l := by
  obtain ⟨w1, w2, hdec, _, _⟩ := strip_decomp l
  rw [hdec]
  exact List.mem_append_left w2 (List.mem_append_right w1 h)

/-- `noUpper` restricted to a membership condition. -/
theorem noUpper_iff {l : Str} :
    noUpper l = true ↔ ∀ c ∈ l, ¬(65 ≤ c ∧ c ≤ 90) := by
  simp only [noUpper, List.all_eq_true, Bool.not_eq_true', Bool.and_eq_false_iff,
    decide_eq_false_iff_not]
  constructor
  · intro h c hc
    have := h c hc
    omega
  · intro h c hc
    have := h c hc
    omega

/-- `noUpper` passes to `strip`. -/
theorem noUpper_strip {l : Str} (h : noUpper l = true) :
    noUpper (strip l) = true := by
  rw [noUpper_iff] at *
  exact fun c hc => h c (mem_strip hc)

/-- The head of a stripped string is not whitespace. -/
theorem strip_head_ws {l : Str} {c : Nat} (h : (strip l).head? = some c) :
    isWSb c = false := by
  have h1 : (stripL l) = strip l ++ ((stripL l).reverse.takeWhile isWSb).reverse := by
    unfold strip stripR
    conv_lhs => rw [← List.reverse_reverse (stripL l),
      ← List.takeWhile_append_dropWhile isWSb (stripL l).reverse]
    rw [List.reverse_append]
  cases hs : strip l with
  | nil => rw [hs] at h; simp at h
  | cons a rest =>
    rw [hs] at h
    simp only [List.head?_cons, Option.some_inj] at h
    have h2 : (stripL l).head? = some a := by
      rw [h1, hs]
      rfl
    rw [← h]
    exact head_dropWhile_ws h2

/-- The last character of a stripped string is not whitespace. -/
theorem strip_last_ws {l : Str} {c : Nat} (h : (strip l).getLast? = some c) :
    isWSb c = false := by
  unfold strip stripR at h
  rw [List.getLast?_reverse] at h
  exact head_dropWhile_ws h

/-- A stripped string has safe edges. -/
theorem headOk_strip (l : Str) : headOk (strip l) = true := by
  unfold headOk
  cases hh : (strip l).head? with
  | none => rfl
  | some c =>
    show (!isWSb c) = true
    rw [strip_head_ws hh]
    rfl

/-- A stripped string has a safe last character. -/
theorem lastOk_strip (l : Str) : lastOk (strip l) = true := by
  unfold lastOk
  cases hh : (strip l).getLast? with
  | none => rfl
  | some c =>
    show (!isWSb c) = true
    rw [strip_last_ws hh]
    rfl

/-- `noWsRun` passes to `strip` (a contiguous middle segment). -/
theorem noWsRun_strip {l : Str} (h : noWsRun l = true) :
    noWsRun (strip l) = true := by
  obtain ⟨w1, w2, hdec, _, _⟩ := strip_decomp l
  rw [hdec] at h
  exact noWsRun_append_right (noWsRun_append_left h)

/-- Prepending a space in front of a safe-headed string keeps runs out. -/
theorem noWsRun_ws_cons {y : Str} (hy2 : headOk y = true) (hy1 : noWsRun y = true) :
    noWsRun (32 :: y) = true := by
  apply noWsRun_cons_of hy1
  intro c hc hcon
  unfold headOk at hy2
  rw [hc] at hy2
  have hy3 : (!isWSb c) = true := hy2
  rw [hcon.2] at hy3
  simp at hy3

/-- Joining two pieces with a single space introduces no whitespace run. -/
theorem noWsRun_sep {y : Str} (hy1 : noWsRun y = true) (hy2 : headOk y = true) :
    ∀ x : Str, noWsRun x = true → lastOk x = true → noWsRun (x ++ 32 :: y) = true := by
  intro x
  induction x with
  | nil =>
    intro _ _
    rw [List.nil_append]
    exact noWsRun_ws_cons hy2 hy1
  | cons a t ih =>
    intro hx1 hx2
    rw [List.cons_append]
    cases t with
    | nil =>
      have ha : isWSb a = false := by
        unfold lastOk at hx2
        simpa using hx2
      rw [List.nil_append]
      apply noWsRun_cons_of (noWsRun_ws_cons hy2 hy1)
      intro c hc hcon
      rw [ha] at hcon
      simp at hcon
    | cons b r =>
      have hx2' : lastOk (b :: r) = true := by
        unfold lastOk at hx2 ⊢
        rw [List.getLast?_cons_cons] at hx2
        exact hx2
      apply noWsRun_cons_of (ih (noWsRun_tail hx1) hx2')
      intro c hc hcon
      simp only [List.cons_append, List.head?_cons, Option.some_inj] at hc
      subst hc
      unfold noWsRun at hx1
      have h1 := (band_true hx1).1
      rw [hcon.1, hcon.2] at h1
      simp at h1

/-- `joinSpace` unfoldings. -/
theorem joinSpace_nil : joinSpace [] = [] := by
  simp [joinSpace, List.intercalate]

/-- `joinSpace` of a single piece. -/
theorem joinSpace_single (t : Str) : joinSpace [t] = t := by
  simp [joinSpace, List.intercalate, List.intersperse]

/-- `joinSpace` peels the first of two or more pieces. -/
theorem joinSpace_cons_cons (x y : Str) (r : List Str) :
    joinSpace (x :: y :: r) = x ++ 32 :: joinSpace (y :: r) := by
  simp [joinSpace, List.intercalate, List.intersperse]

/-- A join of non-empty, safe pieces is run-free with safe edges. -/
theorem joinSpace_facts : ∀ ls : List Str,
    (∀ w ∈ ls, w ≠ [] ∧ noWsRun w = true ∧ headOk w = true ∧ lastOk w = true) →
    noWsRun (joinSpace ls) = true ∧ headOk (joinSpace ls) = true ∧
      lastOk (joinSpace ls) = true := by
  intro ls
  induction ls with
  | nil =>
    intro _
    rw [joinSpace_nil]
    exact ⟨rfl, rfl, rfl⟩
  | cons x r ih =>
    intro h
    obtain ⟨hxne, hx1, hx2, hx3⟩ := h x (List.mem_cons_self x r)
    cases r with
    | nil =>
      rw [joinSpace_single]
      exact ⟨hx1, hx2, hx3⟩
    | cons y rr =>
      rw [joinSpace_cons_cons]
      obtain ⟨hr1, hr2, hr3⟩ := ih (fun w hw => h w (List.mem_cons_of_mem x hw))
      refine ⟨noWsRun_sep hr1 hr2 x hx1 hx3, ?_, ?_⟩
      · unfold headOk at hx2 ⊢
        cases x with
        | nil => exact absurd rfl hxne
        | cons a t => exact hx2
      · rw [lastOk, List.getLast?_append_of_ne_nil x (by simp)]
        have hjne : joinSpace (y :: rr) ≠ [] := by
          obtain ⟨hyne, _, _, _⟩ := h y (List.mem_cons_of_mem x (List.mem_cons_self y rr))
          cases rr with
          | nil =>
            rw [joinSpace_single]
            exact hyne
          | cons z zz =>
            rw [joinSpace_cons_cons]
            simp
        rw [show (32 :: joinSpace (y :: rr)) = [32] ++ joinSpace (y :: rr) from rfl,
          List.getLast?_append_of_ne_nil [32] hjne]
        unfold lastOk at hr3
        exact hr3

/-- Splitting characters come from the input and are never whitespace. -/
theorem splitRaw_mem : ∀ (l : Str) (t : Str), t ∈ splitRaw l →
    ∀ c ∈ t, c ∈ l ∧ isWSb c = false := by
  intro l
  induction l with
  | nil =>
    intro t ht
    simp [splitRaw] at ht
  | cons a r ih =>
    intro t ht c hc
    have hstep : splitRaw (a :: r) = if isWSb a then [] :: splitRaw r
        else match splitRaw r with
          | [] => [[a]]
          | t0 :: rest => (a :: t0) :: rest := rfl
    by_cases ha : isWSb a = true
    · rw [hstep, if_pos ha] at ht
      rcases List.mem_cons.mp ht with rfl | ht2
      · simp at hc
      · obtain ⟨h1, h2⟩ := ih t ht2 c hc
        exact ⟨List.mem_cons_of_mem a h1, h2⟩
    · rw [hstep, if_neg ha] at ht
      rw [Bool.not_eq_true] at ha
      cases hr : splitRaw r with
      | nil =>
        rw [hr] at ht
        simp only [List.mem_singleton] at ht
        subst ht
        simp only [List.mem_singleton] at hc
        subst hc
        exact ⟨List.mem_cons_self c r, ha⟩
      | cons t0 rest =>
        rw [hr] at ht
        rcases List.mem_cons.mp ht with rfl | ht2
        · rcases List.mem_cons.mp hc with rfl | hc2
          · exact ⟨List.mem_cons_self c r, ha⟩
          · obtain ⟨h1, h2⟩ := ih t0 (by rw [hr]; exact List.mem_cons_self t0 rest) c hc2
            exact ⟨List.mem_cons_of_mem a h1, h2⟩
        · obtain ⟨h1, h2⟩ := ih t (by rw [hr]; exact List.mem_cons_of_mem t0 ht2) c hc
          exact ⟨List.mem_cons_of_mem a h1, h2⟩

/-- Tokens of `str.split()` are non-empty, whitespace-free subcollections. -/
theorem splitWs_mem {l t : Str} (h : t ∈ splitWs l) :
    t ≠ [] ∧ ∀ c ∈ t, c ∈ l ∧ isWSb c = false := by
  unfold splitWs at h
  obtain ⟨h1, h2⟩ := List.mem_filter.mp h
  refine ⟨by simpa using h2, splitRaw_mem l t h1⟩

/-- A non-empty whitespace-free string splits into itself. -/
theorem splitWs_wsfree {u : Str} (hne : u ≠ []) (h : ∀ c ∈ u, isWSb c = false) :
    splitWs u = [u] := by
  have hraw : splitRaw u = [u] := by
    induction u with
    | nil => exact absurd rfl hne
    | cons a r ih =>
      have hstep : splitRaw (a :: r) = if isWSb a then [] :: splitRaw r
          else match splitRaw r with
            | [] => [[a]]
            | t0 :: rest => (a :: t0) :: rest := rfl
      rw [hstep, if_neg (by rw [h a (List.mem_cons_self a r)]; simp)]
      cases hr0 : r with
      | nil => simp [splitRaw]
      | cons b rr =>
        have := ih (by simp [hr0]) (fun c hc => h c (List.mem_cons_of_mem a hc))
        rw [hr0] at this
        rw [this]
  unfold splitWs
  rw [hraw]
  have hemp : (!u.isEmpty) = true := by
    cases u with
    | nil => exact absurd rfl hne
    | cons a r => rfl
  simp [List.filter_cons, hemp]

/-- Cleaning a whitespace-free token only unifies quotes and lowercases. -/
theorem clean_wsfree {u : Str} (hne : u ≠ []) (h : ∀ c ∈ u, isWSb c = false) :
    clean u = lowerStr (repQuoteStr u) := by
  unfold clean
  have hstrip : strip u = u :=
    strip_eq_self (fun c hc => h c (List.mem_of_mem_head? hc))
      (fun c hc => by
        rw [← List.head?_reverse] at hc
        exact h c (List.mem_reverse.mp (List.mem_of_mem_head? hc)))
  rw [hstrip]
  have hq : ∀ c ∈ repQuoteStr u, isWSb c = false := by
    intro c hc
    obtain ⟨a, ha, rfl⟩ := List.mem_map.mp hc
    rw [isWSb_repQuote]
    exact h a ha
  have hqne : repQuoteStr u ≠ [] := by
    unfold repQuoteStr
    simpa using hne
  rw [splitWs_wsfree hqne hq, joinSpace_single]

/-- Whitespace-preserving character maps keep runs out. -/
theorem noWsRun_map_wspres {f : Nat → Nat} (hf : ∀ c, isWSb (f c) = isWSb c) :
    ∀ l : Str, noWsRun l = true → noWsRun (l.map f) = true := by
  intro l
  induction l with
  | nil => intro _; rfl
  | cons a t ih =>
    intro h
    rw [List.map_cons]
    apply noWsRun_cons_of (ih (noWsRun_tail h))
    intro c hc hcon
    cases t with
    | nil => simp at hc
    | cons b r =>
      rw [List.map_cons, List.head?_cons, Option.some_inj] at hc
      subst hc
      unfold noWsRun at h
      have h1 := (band_true h).1
      rw [hf a, hf b] at hcon
      rw [hcon.1, hcon.2] at h1
      simp at h1

/-- Whitespace-preserving character maps keep the head safe. -/
theorem headOk_map_wspres {f : Nat → Nat} (hf : ∀ c, isWSb (f c) = isWSb c)
    {l : Str} (h : headOk l = true) : headOk (l.map f) = true := by
  cases l with
  | nil => rfl
  | cons a t =>
    show (!isWSb (f a)) = true
    rw [hf a]
    exact h

/-- Whitespace-preserving character maps keep the last character safe. -/
theorem lastOk_map_wspres {f : Nat → Nat} (hf : ∀ c, isWSb (f c) = isWSb c)
    {l : Str} (h : lastOk l = true) : lastOk (l.map f) = true := by
  unfold lastOk at *
  rw [List.getLast?_map]
  cases hg : l.getLast? with
  | none => rfl
  | some c =>
    rw [hg] at h
    show (!isWSb (f c)) = true
    rw [hf c]
    exact h

/-- The cleaned token is uppercase-free, run-free and has safe edges. -/
theorem clean_facts (t : Str) :
    noUpper (clean t) = true ∧ noWsRun (clean t) = true ∧
      headOk (clean t) = true ∧ lastOk (clean t) = true := by
  have htoks : ∀ w ∈ splitWs (repQuoteStr (strip t)),
      w ≠ [] ∧ noWsRun w = true ∧ headOk w = true ∧ lastOk w = true := by
    intro w hw
    obtain ⟨hne, hp⟩ := splitWs_mem hw
    exact ⟨hne, noWsRun_wsfree (fun c hc => (hp c hc).2),
      headOk_wsfree (fun c hc => (hp c hc).2), lastOk_wsfree (fun c hc => (hp c hc).2)⟩
  obtain ⟨h1, h2, h3⟩ := joinSpace_facts _ htoks
  exact ⟨noUpper_lowerStr _, noWsRun_map_wspres isWSb_pyLower _ h1,
    headOk_map_wspres isWSb_pyLower h2, lastOk_map_wspres isWSb_pyLower h3⟩

/-- No uppercase across a single-space join of two uppercase-free pieces. -/
theorem noUpper_sep {x y : Str} (hx : noUpper x = true) (hy : noUpper y = true) :
    noUpper (x ++ 32 :: y) = true := by
  rw [noUpper_iff] at *
  intro c hc
  rcases List.mem_append.mp hc with h1 | h2
  · exact hx c h1
  · rcases List.mem_cons.mp h2 with rfl | h3
    · omega
    · exact hy c h3

/-- Destruct `headOk`. -/
theorem headOk_some {l : Str} {c : Nat} (h : headOk l = true)
    (hc : l.head? = some c) : isWSb c = false := by
  unfold headOk at h
  rw [hc] at h
  simpa using h

/-- Destruct `lastOk`. -/
theorem lastOk_some {l : Str} {c : Nat} (h : lastOk l = true)
    (hc : l.getLast? = some c) : isWSb c = false := by
  unfold lastOk at h
  rw [hc] at h
  simpa using h

/-- A string with safe edges is already stripped. -/
theorem strip_eq_self_ok {l : Str} (h1 : headOk l = true) (h2 : lastOk l = true) :
    strip l = l :=
  strip_eq_self (fun _ hc => headOk_some h1 hc) (fun _ hc => lastOk_some h2 hc)

/-- A safe head survives appending on the right. -/
theorem headOk_append_ne {x z : Str} (hne : x ≠ []) (h : headOk x = true) :
    headOk (x ++ z) = true := by
  cases x with
  | nil => exact absurd rfl hne
  | cons a t => exact h

/-- The output shape `strip (x ++ " " ++ y)` preserves the two invariants
(and gains safe edges). -/
theorem sep_output_ok {x y : Str}
    (hx1 : noUpper x = true) (hx2 : noWsRun x = true) (hx3 : lastOk x = true)
    (hy1 : noUpper y = true) (hy2 : noWsRun y = true) (hy3 : headOk y = true) :
    noUpper (strip (x ++ 32 :: y)) = true ∧ noWsRun (strip (x ++ 32 :: y)) = true ∧
      headOk (strip (x ++ 32 :: y)) = true ∧ lastOk (strip (x ++ 32 :: y)) = true :=
  ⟨noUpper_strip (noUpper_sep hx1 hy1),
   noWsRun_strip (noWsRun_sep hy2 hy3 x hx2 hx3),
   headOk_strip _, lastOk_strip _⟩

/-- Canonical variant tags are uppercase-free, run-free, with safe edges. -/
theorem lookupVariant_good {t r : Str} (h : lookupVariant t = some r) :
    noUpper r = true ∧ noWsRun r = true ∧ headOk r = true ∧ lastOk r = true := by
  unfold lookupVariant at h
  cases hf : variantPairs.find? (fun p => p.1 == t) with
  | none => rw [hf] at h; simp at h
  | some p =>
    rw [hf] at h
    have h2 : p.2 = r := by simpa using h
    have hp := List.mem_of_find?_eq_some hf
    have hall : ∀ q ∈ variantPairs, noUpper q.2 = true ∧ noWsRun q.2 = true ∧
        headOk q.2 = true ∧ lastOk q.2 = true := by decide
    rw [← h2]
    exact hall p hp

/-- The kept tokens of the region scan come from the input list. -/
theorem splitRegion_mem : ∀ (ls : List Str) (t : Str),
    t ∈ (splitRegion ls).2 → t ∈ ls := by
  intro ls
  induction ls with
  | nil =>
    intro t ht
    exact absurd ht (by simp [splitRegion])
  | cons a r ih =>
    intro t ht
    unfold splitRegion at ht
    cases hv : lookupVariant a with
    | some x =>
      rw [hv] at ht
      exact List.mem_cons_of_mem a (ih t ht)
    | none =>
      rw [hv] at ht
      rcases List.mem_cons.mp ht with h1 | h2
      · rw [h1]
        exact List.mem_cons_self a r
      · exact List.mem_cons_of_mem a (ih t h2)

/-- A remembered region tag comes from a variant lookup. -/
theorem splitRegion_some : ∀ (ls : List Str) (r : Str),
    (splitRegion ls).1 = some r → ∃ u, lookupVariant u = some r := by
  intro ls
  induction ls with
  | nil =>
    intro r hr
    exact absurd hr (by simp [splitRegion])
  | cons a tl ih =>
    intro r hr
    unfold splitRegion at hr
    cases hv : lookupVariant a with
    | some x =>
      rw [hv] at hr
      have : x = r := by simpa using hr
      exact ⟨a, this ▸ hv⟩
    | none =>
      rw [hv] at hr
      exact ih r hr

/-- A successful base search returns a cleaned window phrase that is a
dictionary member. -/
theorem findBase_some_phrase {toks dict : List Str} {st en : Nat} {nm : Str}
    (h : findBase toks dict = some (st, en, nm)) :
    (∃ a b, nm = windowPhrase toks a b) ∧ nm ∈ dict := by
  have heq : findBase toks dict = if dict.isEmpty then none else
      (descRange toks.length).findSome? (fun len =>
        (List.range (toks.length - len + 1)).findSome? (fun st2 =>
          if windowPhrase toks st2 len ∈ dict
          then some (st2, st2 + len, windowPhrase toks st2 len) else none)) := rfl
  rw [heq] at h
  by_cases hd : dict.isEmpty
  · rw [if_pos hd] at h
    exact absurd h (by simp)
  · rw [if_neg hd] at h
    obtain ⟨len, _, hlen⟩ := List.exists_of_findSome?_eq_some h
    obtain ⟨st0, _, hst⟩ := List.exists_of_findSome?_eq_some hlen
    by_cases hm : windowPhrase toks st0 len ∈ dict
    · rw [if_pos hm] at hst
      have h3 : windowPhrase toks st0 len = nm := by
        have := (Option.some_inj.mp hst)
        exact congrArg (fun q => q.2.2) this
      exact ⟨⟨st0, len, h3.symm⟩, h3 ▸ hm⟩
    · rw [if_neg hm] at hst
      exact absurd hst (by simp)

/-- Characters of a space-join come from the pieces or are the space. -/
theorem mem_joinSpace {c : Nat} : ∀ {ls : List Str}, c ∈ joinSpace ls →
    c = 32 ∨ ∃ w ∈ ls, c ∈ w := by
  intro ls
  induction ls with
  | nil =>
    intro h
    rw [joinSpace_nil] at h
    simp at h
  | cons x r ih =>
    intro h
    cases r with
    | nil =>
      rw [joinSpace_single] at h
      exact Or.inr ⟨x, List.mem_cons_self x [], h⟩
    | cons y rr =>
      rw [joinSpace_cons_cons] at h
      rcases List.mem_append.mp h with h1 | h2
      · exact Or.inr ⟨x, List.mem_cons_self x (y :: rr), h1⟩
      · rcases List.mem_cons.mp h2 with rfl | h3
        · exact Or.inl rfl
        · rcases ih h3 with h4 | ⟨w, hw, hc⟩
          · exact Or.inl h4
          · exact Or.inr ⟨w, List.mem_cons_of_mem x hw, hc⟩

/-- No uppercase in a space-join of uppercase-free pieces. -/
theorem noUpper_joinSpace {ls : List Str} (h : ∀ w ∈ ls, noUpper w = true) :
    noUpper (joinSpace ls) = true := by
  rw [noUpper_iff]
  intro c hc
  rcases mem_joinSpace hc with rfl | ⟨w, hw, hcw⟩
  · omega
  · exact (noUpper_iff.mp (h w hw)) c hcw

/-- Facts about the cleaned token list the token stage works on. -/
theorem mapclean_facts {s : Str} {w : Str} (hw : w ∈ (splitWs s).map clean) :
    w ≠ [] ∧ (∀ c ∈ w, isWSb c = false) ∧ noUpper w = true := by
  obtain ⟨tok, htok, rfl⟩ := List.mem_map.mp hw
  obtain ⟨hne, hp⟩ := splitWs_mem htok
  rw [clean_wsfree hne (fun c hc => (hp c hc).2)]
  refine ⟨?_, ?_, noUpper_lowerStr _⟩
  · unfold lowerStr repQuoteStr
    simpa using hne
  · intro c hc
    obtain ⟨b, hb, rfl⟩ := List.mem_map.mp hc
    obtain ⟨a, ha, rfl⟩ := List.mem_map.mp hb
    rw [isWSb_pyLower, isWSb_repQuote]
    exact (hp a ha).2

/-- The default last element of a non-empty list is a member. -/
theorem getLastD_mem : ∀ (l : List Str), l ≠ [] → (l.getLast?).getD [] ∈ l := by
  intro l
  induction l with
  | nil => intro h; exact absurd rfl h
  | cons a r ih =>
    intro _
    cases hr : r with
    | nil => simp
    | cons b rr =>
      rw [List.getLast?_cons_cons]
      rw [hr] at ih
      exact List.mem_cons_of_mem a (ih (by simp))

/-- The four facts for any token of the (possibly region-stripped) cleaned
token list. -/
theorem tokenNR_facts {s w : Str} (hw : w ∈ (splitRegion ((splitWs s).map clean)).2) :
    w ≠ [] ∧ noUpper w = true ∧ noWsRun w = true ∧ headOk w = true ∧ lastOk w = true := by
  have hw2 := splitRegion_mem _ _ hw
  obtain ⟨hne, hwf, hup⟩ := mapclean_facts hw2
  exact ⟨hne, hup, noWsRun_wsfree hwf, headOk_wsfree hwf, lastOk_wsfree hwf⟩

/-- The four facts for `strip (joinSpace ws)` over tokens of the cleaned,
region-stripped token list. -/
theorem formsPart_facts {s : Str} {ws : List Str}
    (h : ∀ w ∈ ws, w ∈ (splitRegion ((splitWs s).map clean)).2) :
    noUpper (strip (joinSpace ws)) = true ∧ noWsRun (strip (joinSpace ws)) = true ∧
      headOk (strip (joinSpace ws)) = true ∧ lastOk (strip (joinSpace ws)) = true := by
  have hgood : ∀ w ∈ ws, w ≠ [] ∧ noWsRun w = true ∧ headOk w = true ∧ lastOk w = true := by
    intro w hw
    obtain ⟨h1, _, h2, h3, h4⟩ := tokenNR_facts (h w hw)
    exact ⟨h1, h2, h3, h4⟩
  obtain ⟨hj1, _, _⟩ := joinSpace_facts ws hgood
  have hup : noUpper (joinSpace ws) = true :=
    noUpper_joinSpace (fun w hw => (tokenNR_facts (h w hw)).2.1)
  exact ⟨noUpper_strip hup, noWsRun_strip hj1, headOk_strip _, lastOk_strip _⟩

/-- A join of non-empty pieces is non-empty. -/
theorem joinSpace_ne_nil {ls : List Str} (hne : ls ≠ []) (h : ∀ w ∈ ls, w ≠ []) :
    joinSpace ls ≠ [] := by
  cases ls with
  | nil => exact absurd rfl hne
  | cons x r =>
    cases r with
    | nil =>
      rw [joinSpace_single]
      exact h x (List.mem_cons_self x [])
    | cons y rr =>
      rw [joinSpace_cons_cons]
      simp

/-- Non-emptiness of the stripped join of non-empty tokens. -/
theorem formsPart_ne {ws : List Str} (hts : ∀ w ∈ ws, w ≠ [] ∧ noWsRun w = true ∧
    headOk w = true ∧ lastOk w = true) (hne : ws ≠ []) :
    strip (joinSpace ws) ≠ [] := by
  obtain ⟨_, h2, h3⟩ := joinSpace_facts ws hts
  rw [strip_eq_self_ok h2 h3]
  exact joinSpace_ne_nil hne (fun w hw => (hts w hw).1)

/-- C9: whenever `normalize` returns a string — for any raw input and any
dictionary whose entries are uppercase-free and whitespace-collapsed, as the
loader is specified to store them — the result contains no ASCII uppercase
character and no run of two or more consecutive whitespace characters. -/
theorem c9_output_form (raw : Str) (dict : List Str)
    (hdict : ∀ d ∈ dict, noUpper d = true ∧ noWsRun d = true) :
    ∀ t, normalize raw dict = some t → noUpper t = true ∧ noWsRun t = true := by
  intro t h
  simp only [normalize] at h
  split at h
  · exact absurd h (by simp)
  split at h
  · exact absurd h (by simp)
  set s1 : Str := replaceUniStr (strip raw) with hs1
  set toksNR : List Str := (splitRegion ((splitWs s1).map clean)).2 with htoksNR
  split at h
  case isTrue hcond =>
    simp only [Option.some.injEq] at h
    subst h
    exact hdict _ hcond.2
  case isFalse =>
  split at h
  case h_1 baseO formO heq =>
    split at h <;>
      (simp only [Option.some.injEq] at h; subst h) <;>
      rename_i hv
    · have hx := lookupVariant_good hv
      have hy := clean_facts baseO
      obtain ⟨q1, q2, _, _⟩ := sep_output_ok hx.1 hx.2.1 hx.2.2.2 hy.1 hy.2.1 hy.2.2.1
      exact ⟨q1, q2⟩
    · have hx := clean_facts formO
      have hy := clean_facts baseO
      obtain ⟨q1, q2, _, _⟩ := sep_output_ok hx.1 hx.2.1 hx.2.2.2 hy.1 hy.2.1 hy.2.2.1
      exact ⟨q1, q2⟩
  case h_2 =>
  split at h
  case h_1 formO baseO heq =>
    split at h <;>
      (simp only [Option.some.injEq] at h; subst h) <;>
      rename_i hv
    · have hx := lookupVariant_good hv
      have hy := clean_facts baseO
      obtain ⟨q1, q2, _, _⟩ := sep_output_ok hx.1 hx.2.1 hx.2.2.2 hy.1 hy.2.1 hy.2.2.1
      exact ⟨q1, q2⟩
    · have hx := clean_facts formO
      have hy := clean_facts baseO
      obtain ⟨q1, q2, _, _⟩ := sep_output_ok hx.1 hx.2.1 hx.2.2.2 hy.1 hy.2.1 hy.2.2.1
      exact ⟨q1, q2⟩
  case h_2 =>
  split at h
  case h_1 baseO formO heq =>
    split at h <;>
      (simp only [Option.some.injEq] at h; subst h) <;>
      rename_i hv
    · have hx := lookupVariant_good hv
      have hy := clean_facts baseO
      obtain ⟨q1, q2, _, _⟩ := sep_output_ok hx.1 hx.2.1 hx.2.2.2 hy.1 hy.2.1 hy.2.2.1
      exact ⟨q1, q2⟩
    · have hx := clean_facts formO
      have hy := clean_facts baseO
      obtain ⟨q1, q2, _, _⟩ := sep_output_ok hx.1 hx.2.1 hx.2.2.2 hy.1 hy.2.1 hy.2.2.1
      exact ⟨q1, q2⟩
  case h_2 =>
  split at h
  · exact absurd h (by simp)
  split at h
  case h_1 fb st en baseName hfb =>
    obtain ⟨⟨a2, b2, hnm⟩, _⟩ := findBase_some_phrase hfb
    have hbase : noUpper baseName = true ∧ noWsRun baseName = true ∧
        headOk baseName = true ∧ lastOk baseName = true := by
      rw [hnm]
      exact clean_facts _
    split at h
    case isTrue hforms =>
      have hmemforms : ∀ w ∈ (toksNR.take st ++ toksNR.drop en), w ∈ toksNR := by
        intro w hw
        rcases List.mem_append.mp hw with h1 | h2
        · exact List.mem_of_mem_take h1
        · exact List.mem_of_mem_drop h2
      have hfp := @formsPart_facts s1 _ hmemforms
      have hfpne : strip (joinSpace (toksNR.take st ++ toksNR.drop en)) ≠ [] := by
        apply formsPart_ne
        · intro w hw
          obtain ⟨w1, _, w2, w3, w4⟩ := tokenNR_facts (hmemforms w hw)
          exact ⟨w1, w2, w3, w4⟩
        · exact hforms
      split at h <;>
        (simp only [Option.some.injEq] at h; subst h)
      · rename_i r hr
        obtain ⟨u, hu⟩ := splitRegion_some _ _ hr
        have hru := lookupVariant_good hu
        have hin1 : noUpper (strip (joinSpace (toksNR.take st ++ toksNR.drop en)) ++
            32 :: baseName) = true := noUpper_sep hfp.1 hbase.1
        have hin2 : noWsRun (strip (joinSpace (toksNR.take st ++ toksNR.drop en)) ++
            32 :: baseName) = true :=
          noWsRun_sep hbase.2.1 hbase.2.2.1 _ hfp.2.1 hfp.2.2.2
        have hin3 : headOk (strip (joinSpace (toksNR.take st ++ toksNR.drop en)) ++
            32 :: baseName) = true :=
          headOk_append_ne hfpne hfp.2.2.1
        obtain ⟨q1, q2, _, _⟩ := sep_output_ok hru.1 hru.2.1 hru.2.2.2 hin1 hin2 hin3
        exact ⟨q1, q2⟩
      · obtain ⟨q1, q2, _, _⟩ :=
          sep_output_ok hfp.1 hfp.2.1 hfp.2.2.2 hbase.1 hbase.2.1 hbase.2.2.1
        exact ⟨q1, q2⟩
    case isFalse =>
      split at h <;>
        (simp only [Option.some.injEq] at h; subst h)
      · rename_i r hr
        obtain ⟨u, hu⟩ := splitRegion_some _ _ hr
        have hru := lookupVariant_good hu
        obtain ⟨q1, q2, _, _⟩ :=
          sep_output_ok hru.1 hru.2.1 hru.2.2.2 hbase.1 hbase.2.1 hbase.2.2.1
        exact ⟨q1, q2⟩
      · exact ⟨hbase.1, hbase.2.1⟩
  case h_2 =>
  rename_i hfb0
  split at h
  case h_1 r hr =>
    obtain ⟨u, hu⟩ := splitRegion_some _ _ hr
    have hru := lookupVariant_good hu
    split at h <;>
      (simp only [Option.some.injEq] at h; subst h)
    · rename_i hrem
      have hrem2 := @formsPart_facts s1 toksNR (fun w hw => hw)
      obtain ⟨q1, q2, _, _⟩ :=
        sep_output_ok hru.1 hru.2.1 hru.2.2.2 hrem2.1 hrem2.2.1 hrem2.2.2.1
      exact ⟨q1, q2⟩
    · exact ⟨hru.1, hru.2.1⟩
  case h_2 =>
  rename_i hreg0
  clear hfb0 hreg0
  clear_value toksNR
  split at h
  case h_1 x0 => exact absurd h (by simp)
  case h_2 x0 t1 =>
    simp only [Option.some.injEq] at h
    subst h
    have ht1 : t1 ∈ (splitRegion ((splitWs s1).map clean)).2 := by
      rw [← htoksNR]
      exact List.mem_cons_self t1 []
    obtain ⟨_, q1, q2, _, _⟩ := tokenNR_facts ht1
    exact ⟨q1, q2⟩
  case h_3 x0 t1 t2 ts =>
    have hmem : ∀ w ∈ (t1 :: t2 :: ts).dropLast,
        w ∈ (splitRegion ((splitWs s1).map clean)).2 := by
      intro w hw
      rw [← htoksNR]
      exact List.dropLast_subset _ hw
    have hfp := @formsPart_facts s1 _ hmem
    have hguess : ((t1 :: t2 :: ts).getLast?).getD [] ∈
        (splitRegion ((splitWs s1).map clean)).2 := by
      rw [← htoksNR]
      exact getLastD_mem _ (by simp)
    obtain ⟨_, g1, g2, g3, g4⟩ := tokenNR_facts hguess
    split at h <;>
      (simp only [Option.some.injEq] at h; subst h)
    · obtain ⟨q1, q2, _, _⟩ := sep_output_ok hfp.1 hfp.2.1 hfp.2.2.2 g1 g2 g3
      exact ⟨q1, q2⟩
    · exact ⟨g1, g2⟩

/-- C9, witness: a concrete invocation — uppercased, doubly-spaced input
against the scenario dictionary — lands in the invariant. -/
theorem c9_output_form_witness :
    noUpper (S "alolan vulpix") = true ∧ noWsRun (S "alolan vulpix") = true :=
  c9_output_form (S "Alolan  VULPIX") exampleDict (by decide)
    (S "alolan vulpix") (by decide)

/-! ### Idempotence kit: character-level facts -/

/-- ASCII lowercasing is idempotent on code points. -/
theorem pyLower_idem (c : Nat) : pyLower (pyLower c) = pyLower c := by
  simp only [pyLower]
  split_ifs <;> omega

/-- ASCII lowercasing is idempotent on strings. -/
theorem lowerStr_idem (l : Str) : lowerStr (lowerStr l) = lowerStr l := by
  unfold lowerStr
  rw [List.map_map]
  apply List.map_congr_left
  intro a _
  exact pyLower_idem a

/-- Lowercasing preserves the regex character class `A`. -/
theorem isAb_pyLower (c : Nat) : isAb (pyLower c) = isAb c := by
  simp only [isAb, isWordB, pyLower]
  split_ifs with h
  · rw [Bool.eq_iff_iff]
    simp only [Bool.or_eq_true, Bool.and_eq_true, decide_eq_true_eq, beq_iff_eq]
    omega
  · rfl

/-- Lowercasing preserves the suffix-separator class. -/
theorem isSepB_pyLower (c : Nat) : isSepB (pyLower c) = isSepB c := by
  simp only [isSepB, isWSb, pyLower]
  split_ifs with h
  · rw [Bool.eq_iff_iff]
    simp only [Bool.or_eq_true, beq_iff_eq]
    omega
  · rfl

/-- The only whitespace character inside class `A` is the space. -/
theorem isAb_isWSb_32 {c : Nat} (h1 : isAb c = true) (h2 : isWSb c = true) :
    c = 32 := by
  simp only [isAb, isWordB, isWSb, Bool.or_eq_true, Bool.and_eq_true,
    decide_eq_true_eq, beq_iff_eq] at h1 h2
  omega

/-- The head surviving a `dropWhile` fails the predicate. -/
theorem head_dropWhile_false {p : Nat → Bool} :
    ∀ {l : Str} {c : Nat}, (l.dropWhile p).head? = some c → p c = false := by
  intro l
  induction l with
  | nil => intro c h; simp at h
  | cons a t ih =>
    intro c h
    by_cases ha : p a = true
    · rw [List.dropWhile_cons_of_pos ha] at h
      exact ih h
    · rw [List.dropWhile_cons_of_neg ha] at h
      simp only [List.head?_cons, Option.some_inj] at h
      subst h
      exact Bool.not_eq_true _ ▸ ha

/-- Quote unification fixes class-`A` strings. -/
theorem repQuoteStr_allA {l : Str} (h : ∀ c ∈ l, isAb c = true) :
    repQuoteStr l = l :=
  map_eq_self_of_fixed l (fun c hc => repQuote_of_isAb (h c hc))

/-- Punctuation unification fixes class-`A` strings. -/
theorem replaceUniStr_allA {l : Str} (h : ∀ c ∈ l, isAb c = true) :
    replaceUniStr l = l :=
  map_eq_self_of_fixed l (fun c hc => replaceUni_of_isAb (h c hc))

/-- Lowercasing keeps a string inside class `A`. -/
theorem lowerStr_allA {l : Str} (h : ∀ c ∈ l, isAb c = true) :
    ∀ c ∈ lowerStr l, isAb c = true := by
  intro c hc
  obtain ⟨a, ha, rfl⟩ := List.mem_map.mp hc
  rw [isAb_pyLower]
  exact h a ha

/-- Lowercasing keeps a string whitespace-free. -/
theorem lowerStr_wsfree {l : Str} (h : ∀ c ∈ l, isWSb c = false) :
    ∀ c ∈ lowerStr l, isWSb c = false := by
  intro c hc
  obtain ⟨a, ha, rfl⟩ := List.mem_map.mp hc
  rw [isWSb_pyLower]
  exact h a ha

/-- `strip` commutes with whitespace-preserving character maps. -/
theorem strip_map_wspres {f : Nat → Nat} (hf : ∀ c, isWSb (f c) = isWSb c)
    (l : Str) : strip (l.map f) = (strip l).map f := by
  unfold strip stripR stripL
  simp only [List.dropWhile_map, ← List.map_reverse]
  rw [show isWSb ∘ f = isWSb from funext hf]

/-! ### Idempotence kit: split/join round trip -/

/-- `splitRaw` unfolding at a whitespace head. -/
theorem splitRaw_ws_cons {c : Nat} (h : isWSb c = true) (l : Str) :
    splitRaw (c :: l) = [] :: splitRaw l := by
  unfold splitRaw
  rw [List.foldr_cons, if_pos h]

/-- `splitRaw` unfolding at a non-whitespace head. -/
theorem splitRaw_nonws_cons {c : Nat} (h : isWSb c = false) (l : Str) :
    splitRaw (c :: l) = match splitRaw l with
      | [] => [[c]]
      | t :: rest => (c :: t) :: rest := by
  unfold splitRaw
  rw [List.foldr_cons, if_neg (by rw [h]; simp)]

/-- Prepending a whitespace-free run extends the first raw piece. -/
theorem splitRaw_append_run : ∀ {tok : Str}, (∀ c ∈ tok, isWSb c = false) →
    ∀ {l : Str} {hd : Str} {tl : List Str}, splitRaw l = hd :: tl →
      splitRaw (tok ++ l) = (tok ++ hd) :: tl := by
  intro tok
  induction tok with
  | nil =>
    intro _ l hd tl hl
    rw [List.nil_append, hl, List.nil_append]
  | cons c tok ih =>
    intro htok l hd tl hl
    rw [List.cons_append,
      splitRaw_nonws_cons (htok c (List.mem_cons_self c tok)),
      ih (fun d hd2 => htok d (List.mem_cons_of_mem c hd2)) hl]
    rfl

/-- `str.split()` on `tok ++ " " ++ rest` peels off the first token. -/
theorem splitWs_sep_cons {tok rest : Str} (hne : tok ≠ [])
    (htok : ∀ c ∈ tok, isWSb c = false) :
    splitWs (tok ++ 32 :: rest) = tok :: splitWs rest := by
  cases hr : splitRaw rest with
  | nil =>
    have h1 : splitRaw (32 :: rest) = [[]] := by
      rw [splitRaw_ws_cons (by decide), hr]
    have h2 : splitRaw (tok ++ 32 :: rest) = [tok ++ []] := splitRaw_append_run htok h1
    unfold splitWs
    rw [h2, hr, List.append_nil]
    have hemp : (!tok.isEmpty) = true := by
      cases tok with
      | nil => exact absurd rfl hne
      | cons a r => rfl
    simp [List.filter_cons, hemp]
  | cons hd tl =>
    have h1 : splitRaw (32 :: rest) = [] :: hd :: tl := by
      rw [splitRaw_ws_cons (by decide), hr]
    have h2 : splitRaw (tok ++ 32 :: rest) = (tok ++ []) :: hd :: tl :=
      splitRaw_append_run htok h1
    unfold splitWs
    rw [h2, hr, List.append_nil]
    have hemp : (!tok.isEmpty) = true := by
      cases tok with
      | nil => exact absurd rfl hne
      | cons a r => rfl
    simp only [List.filter_cons, hemp, if_pos]

/-- A non-whitespace head starts a kept token. -/
theorem splitWs_nonws_head {c : Nat} (h : isWSb c = false) (l : Str) :
    ∃ x xs, splitWs (c :: l) = (c :: x) :: xs := by
  cases hr : splitRaw l with
  | nil =>
    refine ⟨[], [], ?_⟩
    unfold splitWs
    rw [splitRaw_nonws_cons h, hr]
    rfl
  | cons hd tl =>
    refine ⟨hd, tl.filter (fun t => !t.isEmpty), ?_⟩
    unfold splitWs
    rw [splitRaw_nonws_cons h, hr]
    simp [List.filter_cons]

/-- A whitespace head is discarded by `str.split()`. -/
theorem splitWs_ws_cons {c : Nat} (h : isWSb c = true) (l : Str) :
    splitWs (c :: l) = splitWs l := by
  unfold splitWs
  rw [splitRaw_ws_cons h]
  simp [List.filter_cons]

/-- A string with a non-whitespace character splits into at least one token. -/
theorem splitWs_ne_nil : ∀ {v : Str} {c : Nat}, c ∈ v → isWSb c = false →
    splitWs v ≠ [] := by
  intro v
  induction v with
  | nil => intro c hc _; simp at hc
  | cons a r ih =>
    intro c hc hws
    by_cases ha : isWSb a = true
    · rw [splitWs_ws_cons ha]
      rcases List.mem_cons.mp hc with rfl | hc2
      · rw [hws] at ha; cases ha
      · exact ih hc2 hws
    · obtain ⟨x, xs, hx⟩ := splitWs_nonws_head (Bool.not_eq_true _ ▸ ha) r
      rw [hx]
      simp

/-- In a run-free string whose whitespace is all spaces, a whitespace head is
followed by a non-whitespace character or nothing. -/
theorem noWsRun_ws_head {a : Nat} {l : Str} (h : noWsRun (a :: l) = true)
    (ha : isWSb a = true) : headOk l = true := by
  cases l with
  | nil => rfl
  | cons b r =>
    unfold noWsRun at h
    have h1 := (band_true h).1
    unfold headOk
    simp only [List.head?_cons]
    rw [ha] at h1
    simpa using h1

/-- Splitting on whitespace and re-joining with single spaces is the
identity on space-only, run-free strings with safe edges. -/
theorem join_split_id : ∀ (n : Nat) (t : Str), t.length ≤ n →
    (∀ c ∈ t, isWSb c = true → c = 32) → noWsRun t = true →
    headOk t = true → lastOk t = true → joinSpace (splitWs t) = t := by
  intro n
  induction n with
  | zero =>
    intro t hlen _ _ _ _
    have ht : t = [] := List.eq_nil_of_length_eq_zero (Nat.le_zero.mp hlen)
    subst ht
    rfl
  | succ n ih =>
    intro t hlen hsp hrun hh hl
    by_cases ht : t = []
    · subst ht; rfl
    by_cases hwf : ∀ c ∈ t, isWSb c = false
    · rw [splitWs_wsfree ht hwf, joinSpace_single]
    -- t contains whitespace: split off the first token
    have htd : t = t.takeWhile (fun c => !isWSb c) ++ t.dropWhile (fun c => !isWSb c) :=
      (List.takeWhile_append_dropWhile _ _).symm
    set tok := t.takeWhile (fun c => !isWSb c) with htok
    set rest0 := t.dropWhile (fun c => !isWSb c) with hrest0
    have htokwf : ∀ c ∈ tok, isWSb c = false := by
      intro c hc
      have := List.mem_takeWhile_imp hc
      simpa using this
    have hrest0ne : rest0 ≠ [] := by
      intro hcon
      rw [hcon, List.append_nil] at htd
      exact hwf (fun c hc => htokwf c (htd ▸ hc))
    cases hr0 : rest0 with
    | nil => exact absurd hr0 hrest0ne
    | cons w rest =>
      have hw : isWSb w = true := by
        have hhead : rest0.head? = some w := by rw [hr0]; rfl
        have := @head_dropWhile_false (fun c => !isWSb c) _ _ (hrest0 ▸ hhead)
        simpa using this
      have hwmem : w ∈ t := by
        rw [htd, hr0]
        exact List.mem_append_right _ (List.mem_cons_self w rest)
      have hw32 : w = 32 := hsp w hwmem hw
      have htokne : tok ≠ [] := by
        intro hcon
        rw [hcon, List.nil_append, hr0] at htd
        have : isWSb w = false := headOk_some hh (by rw [htd]; rfl)
        rw [hw] at this; cases this
      have hrestne : rest ≠ [] := by
        intro hcon
        rw [hr0, hcon] at htd
        have hlast : t.getLast? = some w := by
          rw [htd]
          rw [List.getLast?_append_of_ne_nil _ (by simp)]
          rfl
        have := lastOk_some hl hlast
        rw [hw] at this; cases this
      have hrun2 : noWsRun (w :: rest) = true := by
        have := htd; rw [hr0] at this
        exact noWsRun_append_right (this ▸ hrun)
      have hrunrest : noWsRun rest = true := noWsRun_tail hrun2
      have hhrest : headOk rest = true := noWsRun_ws_head hrun2 hw
      have hlrest : lastOk rest = true := by
        unfold lastOk
        have hlast : t.getLast? = rest.getLast? := by
          rw [htd, hr0]
          rw [List.getLast?_append_of_ne_nil _ (by simp)]
          cases hrr : rest with
          | nil => exact absurd hrr hrestne
          | cons b rb => rw [List.getLast?_cons_cons]
        unfold lastOk at hl
        rw [hlast] at hl
        exact hl
      have hsprest : ∀ c ∈ rest, isWSb c = true → c = 32 := by
        intro c hc
        apply hsp c
        rw [htd, hr0]
        exact List.mem_append_right _ (List.mem_cons_of_mem w hc)
      have hlenrest : rest.length ≤ n := by
        have : t.length = tok.length + 1 + rest.length := by
          rw [htd, hr0]
          simp
          omega
        have htl : 0 < tok.length := List.length_pos.mpr htokne
        omega
      have hjr := ih rest hlenrest hsprest hrunrest hhrest hlrest
      have hsplit : splitWs t = tok :: splitWs rest := by
        conv_lhs => rw [htd, hr0, hw32]
        exact splitWs_sep_cons htokne htokwf
      rw [hsplit]
      cases hsr : splitWs rest with
      | nil =>
        cases hrr : rest with
        | nil => exact absurd hrr hrestne
        | cons b rb =>
          have hb : isWSb b = false := headOk_some hhrest (by rw [hrr]; rfl)
          have := @splitWs_ne_nil rest b (by rw [hrr]; exact List.mem_cons_self b rb) hb
          exact absurd hsr this
      | cons y ys =>
        rw [joinSpace_cons_cons]
        rw [← hsr, hjr]
        conv_rhs => rw [htd, hr0, hw32]

/-! ### Idempotence kit: `_clean_token` canonical forms -/

/-- `_clean_token` fixes lowercase class-`A` strings that are already
whitespace-collapsed with safe edges. -/
theorem clean_canonical {t : Str} (hA : ∀ c ∈ t, isAb c = true)
    (hlow : lowerStr t = t) (hrun : noWsRun t = true)
    (hh : headOk t = true) (hl : lastOk t = true) : clean t = t := by
  unfold clean
  rw [strip_eq_self_ok hh hl, repQuoteStr_allA hA,
    join_split_id t.length t le_rfl (fun c hc hws => isAb_isWSb_32 (hA c hc) hws)
      hrun hh hl, hlow]

/-- Cleaning keeps class-`A` strings inside class `A`. -/
theorem clean_allA {t : Str} (hA : ∀ c ∈ t, isAb c = true) :
    ∀ c ∈ clean t, isAb c = true := by
  apply lowerStr_allA
  intro c hc
  rcases mem_joinSpace hc with rfl | ⟨w, hw, hcw⟩
  · decide
  · obtain ⟨_, hp⟩ := splitWs_mem hw
    have hc2 : c ∈ repQuoteStr (strip t) := (hp c hcw).1
    obtain ⟨a, ha, rfl⟩ := List.mem_map.mp hc2
    rw [repQuote_of_isAb (hA a (mem_strip ha))]
    exact hA a (mem_strip ha)

/-- Cleaned strings are lowercase-stable. -/
theorem clean_lowered (t : Str) : lowerStr (clean t) = clean t :=
  lowerStr_idem _

/-- A string holding a non-whitespace character cleans to a non-empty
string. -/
theorem clean_ne_nil {t : Str} {c0 : Nat} (hc0 : c0 ∈ t)
    (hnws : isWSb c0 = false) : clean t ≠ [] := by
  have hc1 : c0 ∈ strip t := by
    obtain ⟨w1, w2, hdec, hw1, hw2⟩ := strip_decomp t
    rw [hdec] at hc0
    rcases List.mem_append.mp hc0 with h1 | h2
    · rcases List.mem_append.mp h1 with h3 | h4
      · rw [hw1 c0 h3] at hnws; cases hnws
      · exact h4
    · rw [hw2 c0 h2] at hnws; cases hnws
  have hc2 : repQuote c0 ∈ repQuoteStr (strip t) := List.mem_map_of_mem repQuote hc1
  have hnws2 : isWSb (repQuote c0) = false := by rw [isWSb_repQuote]; exact hnws
  have hsne := splitWs_ne_nil hc2 hnws2
  unfold clean lowerStr
  intro hcon
  rw [List.map_eq_nil_iff] at hcon
  cases hsw : splitWs (repQuoteStr (strip t)) with
  | nil => exact hsne hsw
  | cons y ys =>
    rw [hsw] at hcon
    have hyne : y ≠ [] := (splitWs_mem (hsw ▸ List.mem_cons_self y ys)).1
    cases ys with
    | nil => rw [joinSpace_single] at hcon; exact hyne hcon
    | cons z zs =>
      rw [joinSpace_cons_cons] at hcon
      rcases List.append_eq_nil.mp hcon with ⟨_, h2⟩
      cases h2

/-- Cleaning a whitespace-free class-`A` token is plain lowercasing. -/
theorem clean_wsfree_allA {u : Str} (hne : u ≠ [])
    (hwf : ∀ c ∈ u, isWSb c = false) (hA : ∀ c ∈ u, isAb c = true) :
    clean u = lowerStr u := by
  rw [clean_wsfree hne hwf, repQuoteStr_allA hA]

/-- `_clean_token` is idempotent on class-`A` strings. -/
theorem clean_idem_allA {t : Str} (hA : ∀ c ∈ t, isAb c = true) :
    clean (clean t) = clean t := by
  obtain ⟨_, h2, h3, h4⟩ := clean_facts t
  exact clean_canonical (clean_allA hA) (clean_lowered t) h2 h3 h4

/-! ### Idempotence kit: template inversion on class-`A` strings -/

/-- The prefix template rejects whitespace-free strings. -/
theorem prefixMatch_wsfree_none {s : Str} (h : ∀ c ∈ s, isWSb c = false) :
    prefixMatch s = none := by
  have hunfold : prefixMatch s = (descRange (s.takeWhile isAb).length).findSome? (fun k =>
      (descRange ((s.drop k).takeWhile isWSb).length).findSome? (fun m =>
        if (s.drop k).drop m ≠ [] ∧ ((s.drop k).drop m).all isAb
        then some (s.take k, (s.drop k).drop m) else none)) := rfl
  rw [hunfold]
  rw [findSome_none_iff]
  intro k _
  have htw : (s.drop k).takeWhile isWSb = [] := by
    cases hd : s.drop k with
    | nil => rfl
    | cons x t =>
      rw [List.takeWhile_cons_of_neg]
      rw [h x (List.mem_of_mem_drop (hd ▸ List.mem_cons_self x t))]
      simp
  rw [htw]
  rfl

/-- A stripped class-`A` string containing whitespace splits at its last
whitespace character, which is a space followed by a non-empty
whitespace-free tail. -/
theorem exists_lastSplit {s : Str} (hne : s ≠ []) (hstrip : strip s = s)
    (hA : ∀ c ∈ s, isAb c = true) (hws : ¬ (∀ c ∈ s, isWSb c = false)) :
    ∃ front b, s = front ++ 32 :: b ∧ front ≠ [] ∧ b ≠ [] ∧
      ∀ c ∈ b, isWSb c = false := by
  have hrev : s.reverse = s.reverse.takeWhile (fun c => !isWSb c) ++
      s.reverse.dropWhile (fun c => !isWSb c) :=
    (List.takeWhile_append_dropWhile _ _).symm
  set rt := s.reverse.takeWhile (fun c => !isWSb c) with hrt
  set rd := s.reverse.dropWhile (fun c => !isWSb c) with hrd
  have hrtwf : ∀ c ∈ rt, isWSb c = false := by
    intro c hc
    have := List.mem_takeWhile_imp hc
    simpa using this
  have hrdne : rd ≠ [] := by
    intro hcon
    rw [hcon, List.append_nil] at hrev
    apply hws
    intro c hc
    exact hrtwf c (hrev ▸ List.mem_reverse.mpr hc)
  cases hrd0 : rd with
  | nil => exact absurd hrd0 hrdne
  | cons w rd2 =>
    have hw : isWSb w = true := by
      have hhead : rd.head? = some w := by rw [hrd0]; rfl
      have := @head_dropWhile_false (fun c => !isWSb c) _ _ (hrd ▸ hhead)
      simpa using this
    have hwmem : w ∈ s := by
      rw [← List.mem_reverse, hrev, hrd0]
      exact List.mem_append_right _ (List.mem_cons_self w rd2)
    have hw32 : w = 32 := isAb_isWSb_32 (hA w hwmem) hw
    refine ⟨rd2.reverse, rt.reverse, ?_, ?_, ?_, ?_⟩
    · have := congrArg List.reverse hrev
      rw [List.reverse_reverse, hrd0] at this
      rw [this]
      simp [hw32]
    · intro hcon
      rw [List.reverse_eq_nil_iff] at hcon
      rw [hcon] at hrd0
      have hhead : s.head? = some w := by
        have := congrArg List.reverse hrev
        rw [List.reverse_reverse, hrd0] at this
        rw [this]
        simp
      have := headOk_some (hstrip ▸ headOk_strip s) hhead
      rw [hw] at this; cases this
    · intro hcon
      rw [List.reverse_eq_nil_iff] at hcon
      have hlast : s.getLast? = some w := by
        rw [← List.head?_reverse, hrev, hrd0, hcon]
        rfl
      have := lastOk_some (hstrip ▸ lastOk_strip s) hlast
      rw [hw] at this; cases this
    · intro c hc
      exact hrtwf c (List.mem_reverse.mp hc)

/-- What a successful suffix-template match reveals: both groups are
non-empty and drawn from the input's characters. -/
theorem suffixMatch_some_inv {s a f : Str} (h : suffixMatch s = some (a, f)) :
    a ≠ [] ∧ f ≠ [] ∧ (∀ c ∈ a, c ∈ s) ∧ (∀ c ∈ f, c ∈ s) := by
  have hunfold : suffixMatch s = (descRange (s.takeWhile isAb).length).findSome? (fun k =>
      (descRange ((s.drop k).takeWhile isSepB).length).findSome? (fun m =>
        if (s.drop k).drop m ≠ [] ∧ ((s.drop k).drop m).all isAb
        then some (s.take k, (s.drop k).drop m) else none)) := rfl
  rw [hunfold] at h
  obtain ⟨l1, k, l2, hspl, hk, _⟩ := findSome_some_split _ _ _ h
  obtain ⟨m1, m, m2, _, hm, _⟩ := findSome_some_split _ _ _ hk
  have hkmem : k ∈ descRange (s.takeWhile isAb).length := by
    rw [hspl]
    exact List.mem_append_right _ (List.mem_cons_self _ _)
  split at hm
  case isFalse => cases hm
  case isTrue hc =>
    simp only [Option.some_inj, Prod.mk.injEq] at hm
    obtain ⟨ha, hf⟩ := hm
    obtain ⟨hk1, hk2⟩ := mem_descRange.mp hkmem
    have hkle : k ≤ s.length :=
      le_trans hk2 (List.Sublist.length_le (List.takeWhile_sublist _))
    refine ⟨?_, ?_, ?_, ?_⟩
    · rw [← ha]
      intro hcon
      have := congrArg List.length hcon
      simp only [List.length_take, List.length_nil] at this
      omega
    · rw [← hf]; exact hc.1
    · intro c hc2
      rw [← ha] at hc2
      exact List.mem_of_mem_take hc2
    · intro c hc2
      rw [← hf] at hc2
      exact List.mem_of_mem_drop (List.mem_of_mem_drop hc2)

/-- The suffix template's rejection transfers to the lowercased string. -/
theorem suffixMatch_lower_none {s : Str} (h : suffixMatch s = none) :
    suffixMatch (lowerStr s) = none := by
  have hunfold : ∀ u : Str, suffixMatch u =
      (descRange (u.takeWhile isAb).length).findSome? (fun k =>
      (descRange ((u.drop k).takeWhile isSepB).length).findSome? (fun m =>
        if (u.drop k).drop m ≠ [] ∧ ((u.drop k).drop m).all isAb
        then some (u.take k, (u.drop k).drop m) else none)) := fun u => rfl
  rw [hunfold] at h ⊢
  rw [findSome_none_iff] at h ⊢
  have hP : ((lowerStr s).takeWhile isAb).length = (s.takeWhile isAb).length := by
    unfold lowerStr
    rw [List.takeWhile_map]
    rw [show (isAb ∘ pyLower) = isAb from funext isAb_pyLower]
    simp
  rw [hP]
  intro k hk
  have hmiss := h k hk
  rw [findSome_none_iff] at hmiss
  have hdrop : (lowerStr s).drop k = lowerStr (s.drop k) := by
    unfold lowerStr
    rw [List.map_drop]
  have hW : (((lowerStr s).drop k).takeWhile isSepB).length =
      ((s.drop k).takeWhile isSepB).length := by
    rw [hdrop]
    unfold lowerStr
    rw [List.takeWhile_map]
    rw [show (isSepB ∘ pyLower) = isSepB from funext isSepB_pyLower]
    simp
  rw [hW]
  rw [findSome_none_iff]
  intro m hm
  have hmiss2 := hmiss m hm
  split at hmiss2
  case isTrue => cases hmiss2
  case isFalse hc =>
    have heq : List.drop m (List.drop k (lowerStr s)) =
        lowerStr (List.drop m (List.drop k s)) := by
      simp [lowerStr, List.map_drop]
    have hneg : ¬(List.drop m (List.drop k (lowerStr s)) ≠ [] ∧
        (List.drop m (List.drop k (lowerStr s))).all isAb = true) := by
      intro hcon
      apply hc
      rw [heq] at hcon
      constructor
      · intro hnil
        apply hcon.1
        rw [hnil]
        rfl
      · rw [List.all_eq_true]
        intro c hc2
        have := List.all_eq_true.mp hcon.2 (pyLower c)
          (List.mem_map_of_mem pyLower hc2)
        rw [isAb_pyLower] at this
        exact this
    rw [if_neg hneg]

/-! ### Idempotence kit: token-stage computations -/

/-- The subsequence matcher on an empty token list finds nothing. -/
theorem findBase_nil (dict : List Str) : findBase [] dict = none := by
  unfold findBase
  split <;> rfl

/-- The subsequence matcher on a single already-clean token is a plain
membership test. -/
theorem findBase_single {u : Str} (dict : List Str) (hcu : clean u = u) :
    findBase [u] dict = if u ∈ dict then some (0, 1, u) else none := by
  have hwp : windowPhrase [u] 0 1 = u := by
    unfold windowPhrase
    rw [show (([u] : List Str).drop 0).take 1 = [u] from rfl, joinSpace_single, hcu]
  have hunfold : findBase [u] dict = if dict.isEmpty then none else
      (descRange ([u] : List Str).length).findSome? (fun len =>
        (List.range (([u] : List Str).length - len + 1)).findSome? (fun st =>
          if windowPhrase [u] st len ∈ dict then
            some (st, st + len, windowPhrase [u] st len) else none)) := rfl
  by_cases hd : (dict : List Str).isEmpty
  · rw [hunfold, if_pos hd]
    cases dict with
    | nil => rw [if_neg (by simp)]
    | cons x xs => simp [List.isEmpty] at hd
  · rw [hunfold, if_neg hd]
    rw [show descRange ([u] : List Str).length = [1] from rfl]
    simp only [List.findSome?_cons, List.findSome?_nil]
    rw [show List.range (([u] : List Str).length - 1 + 1) = [0] from rfl]
    simp only [List.findSome?_cons, List.findSome?_nil]
    rw [hwp]
    by_cases hmem : u ∈ dict <;> simp [hmem]

/-- Every canonical value of the variant table is a fixed point of the
whole pipeline: non-empty, lowercase, whitespace-free class-`A`, clean,
rejected by the suffix template, and mapped to itself by the table. -/
theorem variantValue_facts : ∀ p ∈ variantPairs,
    p.2 ≠ [] ∧ lowerStr p.2 = p.2 ∧ strip p.2 = p.2 ∧ replaceUniStr p.2 = p.2 ∧
    (∀ c ∈ p.2, isAb c = true) ∧ (∀ c ∈ p.2, isWSb c = false) ∧
    clean p.2 = p.2 ∧ suffixMatch p.2 = none ∧ lookupVariant p.2 = some p.2 := by
  decide

/-- A variant-table hit returns one of the table's values. -/
theorem lookupVariant_val_mem {t r : Str} (h : lookupVariant t = some r) :
    ∃ p ∈ variantPairs, p.2 = r := by
  unfold lookupVariant at h
  cases hf : variantPairs.find? (fun p => p.1 == t) with
  | none => rw [hf] at h; simp at h
  | some p =>
    rw [hf] at h
    exact ⟨p, List.mem_of_find?_eq_some hf, by simpa using h⟩

/-- Re-normalizing stability: every string in the output class is a fixed
point of `normalize` under the same dictionary. -/
theorem outClass_stable {dict : List Str} {t : Str} (h : OutClass dict t) :
    normalize t dict = some t := by
  obtain ⟨hne, hlow, hstr, hrep, hcase⟩ := h
  have hkey : lowerStr (strip (replaceUniStr (strip t))) = t := by
    rw [hstr, hrep, hstr, hlow]
  rcases hcase with hdict | ⟨hA, hstruct⟩
  · rw [normalize_guard hne (by rw [hstr]; exact hne) (by rw [hkey]; exact hdict),
      hkey]
  · by_cases hmem : (¬ dict.isEmpty) ∧
        lowerStr (strip (replaceUniStr (strip t))) ∈ dict
    · rw [normalize_guard hne (by rw [hstr]; exact hne) hmem.2, hkey]
    · have hmem2 : ¬((¬ dict.isEmpty) ∧ t ∈ dict) := by
        rw [hkey] at hmem
        exact hmem
      have hparen : parenMatch t = none := parenMatch_allA hA
      rcases hstruct with ⟨front, b, hdec, hbne, hbwf, hfne, hcf, hcb, hvar⟩ |
        ⟨hwf, hct, hsuf, hlv⟩
      · -- two-part shape: the prefix template re-splits at the last space
        have hpm : prefixMatch t = some (front, b) := by
          rw [hdec]
          exact prefixMatch_split (hdec ▸ hA) hfne (by decide) hbne hbwf
        unfold normalize
        rw [if_neg hne]
        simp only [hstr, hrep, hlow]
        rw [if_neg hne]
        rw [if_neg hmem2]
        simp only [hparen, hpm, hcf, hcb]
        cases hv : lookupVariant front with
        | some r =>
          simp only [hv]
          rw [hvar r hv, ← hdec, hstr]
        | none =>
          simp only [hv]
          rw [← hdec, hstr]
      · -- single-token shape: all templates miss, the token loop returns it
        have hpm : prefixMatch t = none := prefixMatch_wsfree_none hwf
        have hsw : splitWs t = [t] := splitWs_wsfree hne hwf
        unfold normalize
        rw [if_neg hne]
        simp only [hstr, hrep, hlow]
        rw [if_neg hne]
        rw [if_neg hmem2]
        simp only [hparen, hpm, hsuf, hsw, List.map_cons, List.map_nil, hct]
        rcases hlv with hv | hv
        · have hsr : splitRegion [t] = (none, [t]) := by simp [splitRegion, hv]
          simp only [hsr]
          rw [findBase_single dict hct]
          by_cases hd : dict.isEmpty
          · have htd : t ∉ dict := by
              cases dict with
              | nil => simp
              | cons x xs => simp [List.isEmpty] at hd
            rw [if_neg htd]
            simp
          · have htd : t ∉ dict := fun hcon => hmem2 ⟨hd, hcon⟩
            rw [if_neg htd]
            simp
        · have hsr : splitRegion [t] = (some t, []) := by simp [splitRegion, hv]
          simp only [hsr]
          rw [findBase_nil]
          simp [joinSpace_nil, show strip ([] : Str) = [] from rfl]

/-- The properties of a variant-table hit's canonical value. -/
theorem variant_value_props {u r : Str} (h : lookupVariant u = some r) :
    r ≠ [] ∧ lowerStr r = r ∧ strip r = r ∧ replaceUniStr r = r ∧
    (∀ c ∈ r, isAb c = true) ∧ (∀ c ∈ r, isWSb c = false) ∧
    clean r = r ∧ suffixMatch r = none ∧ lookupVariant r = some r := by
  obtain ⟨p, hp, hpr⟩ := lookupVariant_val_mem h
  have hf := variantValue_facts p hp
  rw [hpr] at hf
  exact hf

/-- Assembling the two-part output class from facts about the pieces. -/
theorem outClass_sep {dict : List Str} {X Y : Str}
    (hXne : X ≠ []) (hXA : ∀ c ∈ X, isAb c = true)
    (hXlow : lowerStr X = X) (hXclean : clean X = X)
    (hXh : headOk X = true) (hXl : lastOk X = true)
    (hXvar : ∀ r, lookupVariant X = some r → r = X)
    (hYne : Y ≠ []) (hYwf : ∀ c ∈ Y, isWSb c = false)
    (hYA : ∀ c ∈ Y, isAb c = true) (hYlow : lowerStr Y = Y)
    (hYclean : clean Y = Y) :
    OutClass dict (strip (X ++ 32 :: Y)) := by
  have hl : lastOk (X ++ 32 :: Y) = true := by
    unfold lastOk
    rw [List.getLast?_append_of_ne_nil _ (by simp)]
    cases hY0 : Y with
    | nil => exact absurd hY0 hYne
    | cons y ys =>
      rw [List.getLast?_cons_cons]
      have hYl := lastOk_wsfree hYwf
      unfold lastOk at hYl
      rw [hY0] at hYl
      exact hYl
  have hstr : strip (X ++ 32 :: Y) = X ++ 32 :: Y :=
    strip_eq_self_ok (headOk_append_ne hXne hXh) hl
  rw [hstr]
  have hallA : ∀ c ∈ X ++ 32 :: Y, isAb c = true := by
    intro c hc
    rcases List.mem_append.mp hc with h1 | h2
    · exact hXA c h1
    · rcases List.mem_cons.mp h2 with rfl | h3
      · decide
      · exact hYA c h3
  refine ⟨by simp, ?_, hstr, replaceUniStr_allA hallA,
    Or.inr ⟨hallA, Or.inl ⟨X, Y, rfl, hYne, hYwf, hXne, hXclean, hYclean, hXvar⟩⟩⟩
  show List.map pyLower (X ++ 32 :: Y) = X ++ 32 :: Y
  rw [List.map_append, List.map_cons]
  rw [show pyLower 32 = 32 from by decide]
  rw [show List.map pyLower X = X from hXlow, show List.map pyLower Y = Y from hYlow]

/-- Assembling the single-token output class. -/
theorem outClass_single (dict : List Str) {u : Str}
    (hne : u ≠ []) (hwf : ∀ c ∈ u, isWSb c = false) (hA : ∀ c ∈ u, isAb c = true)
    (hlow : lowerStr u = u) (hclean : clean u = u)
    (hsuf : suffixMatch u = none)
    (hlv : lookupVariant u = none ∨ lookupVariant u = some u) :
    OutClass dict u :=
  ⟨hne, hlow, strip_eq_self_ok (headOk_wsfree hwf) (lastOk_wsfree hwf),
   replaceUniStr_allA hA, Or.inr ⟨hA, Or.inr ⟨hwf, hclean, hsuf, hlv⟩⟩⟩

/-- On class-`A` inputs, every value `normalize` returns lands in the output
class. -/
theorem normalize_outClass {raw : Str} {dict : List Str}
    (hA : ∀ c ∈ raw, isAb c = true) :
    ∀ t, normalize raw dict = some t → OutClass dict t := by
  intro t h
  simp only [normalize] at h
  split at h
  · exact absurd h (by simp)
  split at h
  case isTrue => exact absurd h (by simp)
  case isFalse hs0 =>
  have hrepl : replaceUniStr (strip raw) = strip raw :=
    replaceUniStr_allA (fun c hc => hA c (mem_strip hc))
  rw [hrepl, strip_idem] at h
  set s1 : Str := strip raw with hs1def
  have hs1ne : s1 ≠ [] := hs0
  have hs1A : ∀ c ∈ s1, isAb c = true := fun c hc => hA c (mem_strip hc)
  have hs1strip : strip s1 = s1 := strip_idem raw
  -- the early exact-match guard
  split at h
  case isTrue hcond =>
    simp only [Option.some.injEq] at h
    subst h
    refine ⟨?_, lowerStr_idem s1, ?_, replaceUniStr_allA (lowerStr_allA hs1A),
      Or.inl hcond.2⟩
    · intro hcon
      exact hs1ne (by simpa [lowerStr] using hcon)
    · have hcomm := strip_map_wspres isWSb_pyLower s1
      rw [hs1strip] at hcomm
      exact hcomm
  case isFalse =>
  -- the parenthetical template cannot match inside class `A`
  split at h
  case h_1 baseO formO heq =>
    rw [parenMatch_allA hs1A] at heq
    cases heq
  case h_2 =>
  -- the prefix template
  split at h
  case h_1 formO baseO heqP =>
    by_cases hwfs : ∀ c ∈ s1, isWSb c = false
    · rw [prefixMatch_wsfree_none hwfs] at heqP
      cases heqP
    · obtain ⟨front, bb, hdec, hfne, hbne, hbwf⟩ :=
        exists_lastSplit hs1ne hs1strip hs1A hwfs
      have hps : prefixMatch s1 = some (front, bb) := by
        rw [hdec]
        exact prefixMatch_split (hdec ▸ hs1A) hfne (by decide) hbne hbwf
      rw [heqP] at hps
      simp only [Option.some.injEq, Prod.mk.injEq] at hps
      obtain ⟨hf1, hb1⟩ := hps
      rw [← hf1, ← hb1] at hdec
      rw [← hf1] at hfne
      rw [← hb1] at hbne hbwf
      have hfrontA : ∀ c ∈ formO, isAb c = true := fun c hc =>
        hs1A c (hdec ▸ List.mem_append_left _ hc)
      have hbbA : ∀ c ∈ baseO, isAb c = true := fun c hc =>
        hs1A c (hdec ▸ List.mem_append_right _ (List.mem_cons_of_mem _ hc))
      have hcbb : clean baseO = lowerStr baseO := clean_wsfree_allA hbne hbwf hbbA
      have hYwf : ∀ c ∈ clean baseO, isWSb c = false := by
        rw [hcbb]; exact lowerStr_wsfree hbwf
      have hYA : ∀ c ∈ clean baseO, isAb c = true := by
        rw [hcbb]; exact lowerStr_allA hbbA
      have hYne : clean baseO ≠ [] := by
        rw [hcbb]
        intro hcon
        exact hbne (by simpa [lowerStr] using hcon)
      split at h <;> (simp only [Option.some.injEq] at h; subst h) <;> rename_i hv
      · obtain ⟨hr1, hr2, _, _, hr5, hr6, hr7, _, hr9⟩ := variant_value_props hv
        exact outClass_sep hr1 hr5 hr2 hr7 (headOk_wsfree hr6) (lastOk_wsfree hr6)
          (fun r2 hx => by rw [hr9] at hx; exact (Option.some_inj.mp hx).symm)
          hYne hYwf hYA (clean_lowered baseO) (clean_idem_allA hbbA)
      · have hXne : clean formO ≠ [] := by
          cases hf0 : formO with
          | nil => exact absurd hf0 hfne
          | cons a fr =>
            have hahead : s1.head? = some a := by rw [hdec, hf0]; rfl
            have ha : isWSb a = false :=
              headOk_some (hs1strip ▸ headOk_strip s1) hahead
            exact clean_ne_nil (hf0 ▸ List.mem_cons_self a fr) ha
        obtain ⟨_, _, hXh, hXl⟩ := clean_facts formO
        exact outClass_sep hXne (clean_allA hfrontA) (clean_lowered formO)
          (clean_idem_allA hfrontA) hXh hXl
          (fun r2 hx => by rw [hv] at hx; cases hx)
          hYne hYwf hYA (clean_lowered baseO) (clean_idem_allA hbbA)
  case h_2 =>
  rename_i heqP0
  have hswf : ∀ c ∈ s1, isWSb c = false := by
    by_contra hcon
    obtain ⟨front, bb, hdec, hfne, hbne, hbwf⟩ :=
      exists_lastSplit hs1ne hs1strip hs1A hcon
    have hps : prefixMatch s1 = some (front, bb) := by
      rw [hdec]
      exact prefixMatch_split (hdec ▸ hs1A) hfne (by decide) hbne hbwf
    rw [heqP0] at hps
    cases hps
  -- the suffix template
  split at h
  case h_1 baseO formO heqS =>
    obtain ⟨hbne, hfne, hbsub, hfsub⟩ := suffixMatch_some_inv heqS
    have hbwf : ∀ c ∈ baseO, isWSb c = false := fun c hc => hswf c (hbsub c hc)
    have hfwf : ∀ c ∈ formO, isWSb c = false := fun c hc => hswf c (hfsub c hc)
    have hbA : ∀ c ∈ baseO, isAb c = true := fun c hc => hs1A c (hbsub c hc)
    have hfA : ∀ c ∈ formO, isAb c = true := fun c hc => hs1A c (hfsub c hc)
    have hcb : clean baseO = lowerStr baseO := clean_wsfree_allA hbne hbwf hbA
    have hcf : clean formO = lowerStr formO := clean_wsfree_allA hfne hfwf hfA
    have hYwf : ∀ c ∈ clean baseO, isWSb c = false := by
      rw [hcb]; exact lowerStr_wsfree hbwf
    have hYA : ∀ c ∈ clean baseO, isAb c = true := by
      rw [hcb]; exact lowerStr_allA hbA
    have hYne : clean baseO ≠ [] := by
      rw [hcb]
      intro hcon
      exact hbne (by simpa [lowerStr] using hcon)
    split at h <;> (simp only [Option.some.injEq] at h; subst h) <;> rename_i hv
    · obtain ⟨hr1, hr2, _, _, hr5, hr6, hr7, _, hr9⟩ := variant_value_props hv
      exact outClass_sep hr1 hr5 hr2 hr7 (headOk_wsfree hr6) (lastOk_wsfree hr6)
        (fun r2 hx => by rw [hr9] at hx; exact (Option.some_inj.mp hx).symm)
        hYne hYwf hYA (clean_lowered baseO) (clean_idem_allA hbA)
    · have hXne : clean formO ≠ [] := by
        rw [hcf]
        intro hcon
        exact hfne (by simpa [lowerStr] using hcon)
      obtain ⟨_, _, hXh, hXl⟩ := clean_facts formO
      exact outClass_sep hXne (clean_allA hfA) (clean_lowered formO)
        (clean_idem_allA hfA) hXh hXl
        (fun r2 hx => by rw [hv] at hx; cases hx)
        hYne hYwf hYA (clean_lowered baseO) (clean_idem_allA hbA)
  case h_2 =>
  rename_i heqS0
  -- the token stage on the single whitespace-free token
  rw [show (splitWs s1).map clean = [clean s1] from by
    rw [splitWs_wsfree hs1ne hswf, List.map_cons, List.map_nil]] at h
  have hcs1 : clean s1 = lowerStr s1 := clean_wsfree_allA hs1ne hswf hs1A
  have hune : clean s1 ≠ [] := by
    rw [hcs1]
    intro hcon
    exact hs1ne (by simpa [lowerStr] using hcon)
  have huwf : ∀ c ∈ clean s1, isWSb c = false := by
    rw [hcs1]; exact lowerStr_wsfree hswf
  have huA : ∀ c ∈ clean s1, isAb c = true := clean_allA hs1A
  have hulow : lowerStr (clean s1) = clean s1 := clean_lowered s1
  have huclean : clean (clean s1) = clean s1 := clean_idem_allA hs1A
  have husuf : suffixMatch (clean s1) = none := by
    rw [hcs1]
    exact suffixMatch_lower_none heqS0
  clear hcs1
  generalize hugen : clean s1 = u at h hune huwf huA hulow huclean husuf
  rw [if_neg (show ¬([u] = ([] : List Str)) by simp)] at h
  cases hv : lookupVariant u with
  | some r =>
    have hsr : splitRegion [u] = (some r, []) := by simp [splitRegion, hv]
    simp only [hsr, findBase_nil, joinSpace_nil,
      show strip ([] : Str) = [] from rfl] at h
    simp at h
    subst h
    obtain ⟨hr1, hr2, _, _, hr5, hr6, hr7, hr8, hr9⟩ := variant_value_props hv
    exact outClass_single dict hr1 hr6 hr5 hr2 hr7 hr8 (Or.inr hr9)
  | none =>
    have hsr : splitRegion [u] = (none, [u]) := by
      simp [splitRegion, hv]
    simp only [hsr] at h
    rw [findBase_single dict huclean] at h
    by_cases hmemu : u ∈ dict
    · rw [if_pos hmemu] at h
      simp at h
      subst h
      exact ⟨hune, hulow,
        strip_eq_self_ok (headOk_wsfree huwf) (lastOk_wsfree huwf),
        replaceUniStr_allA huA, Or.inl hmemu⟩
    · rw [if_neg hmemu] at h
      simp at h
      subst h
      exact outClass_single dict hune huwf huA hulow huclean husuf (Or.inl hv)

/-- C4, counterexample: the claim fails as stated. With the empty dictionary,
`normalize("x (a:b)")` returns `"a:b x"` (the parenthetical template), but
re-normalizing gives `normalize("a:b x") = "b x a"` — the colon now acts as a
suffix-template separator — so `normalize(normalize(s)) ≠ normalize(s)`. -/
theorem c4_counterexample :
    normalize (S "x (a:b)") [] = some (S "a:b x") ∧
    normalize (S "a:b x") [] = some (S "b x a") ∧
    S "b x a" ≠ S "a:b x" := by
  refine ⟨by decide, by decide, by decide⟩

/-- C4, amended: idempotence holds on inputs drawn from the regex character
class `[\w\-\.\' %]` (word characters, hyphens, dots, apostrophes, percent
signs, spaces — the class all three templates parse): for every such string
and every dictionary, a non-null result of `normalize` is a fixed point of
`normalize` under the same dictionary. -/
theorem c4_idempotent (raw : Str) (dict : List Str)
    (hA : ∀ c ∈ raw, isAb c = true) :
    ∀ t, normalize raw dict = some t → normalize t dict = some t :=
  fun t h => outClass_stable (normalize_outClass hA t h)

/-- C4, witness: a concrete three-word class-`A` input whose normalized
output re-normalizes to itself. -/
theorem c4_idempotent_witness :
    normalize (S "busted mimikyu totem") [S "mimikyu"] =
      some (S "busted mimikyu totem") :=
  c4_idempotent (S "Busted Mimikyu Totem") [S "mimikyu"] (by decide)
    (S "busted mimikyu totem") (by decide)

end Mod1
